import Mathlib

/-!
# Omophagic Content Reader: segmentation and hole counting

A shallow embedding of `Grapheme.cpp` (pixel predicates, `pareDown`, the two
breadth-first traversals, `countHoles`) and of `Page::Read` from `Page.cpp`,
together with the properties established about them.

Conventions of the embedding.

* C++ `int` coordinates are `Int`; all quantities stay far below the machine range.
* The bitmap is the external EasyBMP `BMP`: its width, its height and its pixel
  accessor `operator()(col, row)` are the fields of `BMP`.
* A counted `for` loop whose bounds the body does not change is a traversal of the
  list of its index values (`intRange`).
* A loop that stops on a flag is a function recursive on the number of index values
  left; lemmas below show that it always stops by its own condition.
* The table `visited` of a traversal has `right - left` columns of `bottom - top` cells.
  Its allocation throws when a length is negative; the source never initialises it, so
  the content it starts with is a parameter (`memory`); a cell that is set is kept in a
  list of marked points.
* An access to `visited` outside the table is undefined behaviour in C++. The outcome of
  a run (`Run`) records whether every access stayed inside the table; when one did not,
  the value reported is the one obtained when the byte addressed is read and written
  like a cell, with the content `memory` gives it.
-/

namespace OCR

/-! ## Data model -/

/-- Pixel of the EasyBMP library: four 8-bit channels. -/
structure RGBApixel where
  Blue : Nat
  Green : Nat
  Red : Nat
  Alpha : Nat
deriving DecidableEq, Repr

/-- Bitmap of the EasyBMP library: `TellWidth`, `TellHeight` and the pixel accessor
`image(col, row)`. -/
structure BMP where
  Width : Int
  Height : Int
  pixel : Int → Int → RGBApixel

/-- Modelled from the spec: the header `Grapheme.h` with `struct Point` is not among
the sources; a point is a pair of integer pixel coordinates with component-wise
equality. -/
structure Point where
  x : Int
  y : Int
deriving DecidableEq, Repr

/-- Modelled from the spec: `struct Box` of the missing header `Grapheme.h`, a pair of
corner points `low` and `high`. -/
structure Box where
  low : Point
  high : Point
deriving DecidableEq, Repr

/-- Members of class `Grapheme`: the shared image and the rectangle. -/
structure Grapheme where
  image : BMP
  left : Int
  right : Int
  bottom : Int
  top : Int

/-- Modelled from the spec: the constant `FG_THRESHOLD` is defined in the missing header
`Grapheme.h`; the darkness threshold is 128. -/
def FG_THRESHOLD : Nat := 128

/-- The index values `lo, lo + 1, ..., hi` of a counted loop (none when `hi < lo`). -/
def intRange (lo hi : Int) : List Int :=
  (List.range (hi + 1 - lo).toNat).map (fun (i : Nat) => lo + (i : Int))

/-! ## Pixel predicates (`Grapheme.cpp`, lines 38-62) -/

/-- Function `isForeground(pixel)`: every colour channel is below the threshold. -/
def isForeground (pixel : RGBApixel) : Bool :=
  decide (pixel.Red < FG_THRESHOLD) && decide (pixel.Green < FG_THRESHOLD)
    && decide (pixel.Blue < FG_THRESHOLD)

/-- Function `isSimilar(a, b)`: the absolute difference of every colour channel is below 10. -/
def isSimilar (a b : RGBApixel) : Bool :=
  let red : Int := (a.Red : Int) - (b.Red : Int)
  let green : Int := (a.Green : Int) - (b.Green : Int)
  let blue : Int := (a.Blue : Int) - (b.Blue : Int)
  let red := if red < 0 then -red else red
  let green := if green < 0 then -green else green
  let blue := if blue < 0 then -blue else blue
  decide (red < 10) && decide (green < 10) && decide (blue < 10)

/-! ## Constructors (`Grapheme.cpp`, lines 68-86) -/

/-- Constructor `Grapheme::Grapheme(BMP &)`: the whole image. -/
def Grapheme.ofImage (img : BMP) : Grapheme :=
  { image := img, left := 0, top := 0, right := img.Width, bottom := img.Height }

/-- Constructor `Grapheme::Grapheme(BMP &, x1, y1, x2, y2)`: part of an image. -/
def Grapheme.ofPart (img : BMP) (x1 y1 x2 y2 : Int) : Grapheme :=
  { image := img, left := x1, right := x2, bottom := y2, top := y1 }

/-! ## `Grapheme::pareDown` (`Grapheme.cpp`, lines 129-152) -/

/-- Inner loop of the top and bottom steps:
`for (col = left; col <= right; ++col) if (isForeground(image(col, row))) fgFound = true;`
started with `fgFound = false`. -/
def rowHasForeground (img : BMP) (left right row : Int) : Bool :=
  (intRange left right).any (fun col => isForeground (img.pixel col row))

/-- Inner loop of the left and right steps:
`for (row = top; row <= bottom; ++row) if (isForeground(image(col, row))) fgFound = true;`
started with `fgFound = false`. -/
def colHasForeground (img : BMP) (top bottom col : Int) : Bool :=
  (intRange top bottom).any (fun row => isForeground (img.pixel col row))

/-- Loop `for (fgFound = false; i <= hi && !fgFound; ++i) fgFound |= test i`, from the
state `(i, fgFound)`; the first argument counts the index values left. Returns the
final `(i, fgFound)`. -/
def pareUp (test : Int → Bool) (hi : Int) : Nat → Int → Bool → Int × Bool
  | 0, i, fgFound => (i, fgFound)
  | n + 1, i, fgFound =>
    if i ≤ hi ∧ fgFound = false then pareUp test hi n (i + 1) (fgFound || test i)
    else (i, fgFound)

/-- Loop `for (fgFound = false; i >= lo && !fgFound; --i) fgFound |= test i`, from the
state `(i, fgFound)`; the first argument counts the index values left. Returns the
final `(i, fgFound)`. -/
def pareDownward (test : Int → Bool) (lo : Int) : Nat → Int → Bool → Int × Bool
  | 0, i, fgFound => (i, fgFound)
  | n + 1, i, fgFound =>
    if i ≥ lo ∧ fgFound = false then pareDownward test lo n (i - 1) (fgFound || test i)
    else (i, fgFound)

/-- Method `Grapheme::pareDown`. The four loops in source order; the bottom loop tests row
`top` (line 140 reads `image(col, top)`), the others test the row or column they move. -/
def Grapheme.pareDown (g : Grapheme) : Grapheme :=
  -- Pare top
  let top := (pareUp (fun t => rowHasForeground g.image g.left g.right t) g.bottom
    (g.bottom + 1 - g.top).toNat g.top false).1
  -- Pare bottom
  let bottom := (pareDownward (fun _ => rowHasForeground g.image g.left g.right top) top
    (g.bottom + 1 - top).toNat g.bottom false).1
  -- Pare left
  let left := (pareUp (fun l => colHasForeground g.image top bottom l) g.right
    (g.right + 1 - g.left).toNat g.left false).1
  -- Pare right
  let right := (pareDownward (fun r => colHasForeground g.image top bottom r) left
    (g.right + 1 - left).toNat g.right false).1
  { image := g.image, left := left, right := right, bottom := bottom, top := top }

/-- The rectangle `(left, top, right, bottom)` of a grapheme. -/
def Grapheme.rect (g : Grapheme) : Int × Int × Int × Int :=
  (g.left, g.top, g.right, g.bottom)


/-! ## Outcomes of a call and the table `visited` (`Grapheme.cpp`, lines 165-168, 221-224) -/

/-- Outcome of a call. `returned value inTable`: the call returns `value`, and `inTable`
tells whether every access to a table `visited` was inside the table; when it is false
the C++ behaviour is undefined and `value` is what the run yields when the byte
addressed past a column is read and written like a cell. `threw`: the allocation of a
table throws. `unfinished`: the bound on the iterations was reached. -/
inductive Run (α : Type) where
  | returned (value : α) (inTable : Bool)
  | threw
  | unfinished
deriving DecidableEq, Repr

/-- Lines 166-168 and 222-224: `new bool*[right - left]` throws when `right - left` is
negative, and `new bool[bottom - top]`, run once for every column, throws when
`bottom - top` is negative. -/
def Grapheme.tableAllocates (g : Grapheme) : Bool :=
  decide (0 ≤ g.right - g.left) &&
    (decide (g.right - g.left = 0) || decide (0 ≤ g.bottom - g.top))

/-- The index pair `(i, j)` addresses a cell of the table: `0 <= i < right - left` and
`0 <= j < bottom - top`. -/
def Grapheme.inTable (g : Grapheme) (ij : Int × Int) : Bool :=
  decide (0 ≤ ij.1) && decide (ij.1 < g.right - g.left) &&
    decide (0 ≤ ij.2) && decide (ij.2 < g.bottom - g.top)

/-- The value read at `visited[n.x - left][n.y - top]`: the content `memory` that the
allocation left there, unless the cell was set to true (`marked`). -/
def Grapheme.isVisited (g : Grapheme) (memory : Int → Int → Bool) (marked : List Point)
    (n : Point) : Bool :=
  memory (n.x - g.left) (n.y - g.top) || decide (n ∈ marked)

/-! ## `Grapheme::isReachable` (`Grapheme.cpp`, lines 216-259) -/

/-- The neighbours examined for a dequeued point `p` (lines 238-246): the bounds
`lowX`, `highX`, `lowY`, `highY` as the source computes them, then `x` in the outer
loop and `y` in the inner loop. -/
def Grapheme.neighbours (g : Grapheme) (p : Point) : List Point :=
  let lowX := if p.x - 1 > g.left then p.x - 1 else g.left
  let highX := if p.x + 1 < g.right - 1 then p.x + 1 else g.right - 1
  let lowY := if p.y - 1 > g.top then p.y - 1 else g.top
  let highY := if p.y + 1 < g.bottom - 1 then p.y + 1 else g.bottom
  (intRange lowX highX).flatMap (fun x => (intRange lowY highY).map (fun y => Point.mk x y))

/-- The test of lines 247-248 apart from the visited mark: the colour of `n` is similar
to the colour of the start pixel. -/
def Grapheme.similarToStart (g : Grapheme) (start n : Point) : Bool :=
  isSimilar (g.image.pixel start.x start.y) (g.image.pixel n.x n.y)

/-- The index pairs `(x - left, y - top)` with which the neighbour loops read the table
`visited` while the point `p` is processed (the test `!visited[x - left][y - top]` of
lines 197 and 247 is evaluated for every neighbour). -/
def Grapheme.visitedIndices (g : Grapheme) (p : Point) : List (Int × Int) :=
  (g.neighbours p).map (fun n => (n.x - g.left, n.y - g.top))

/-- Every index pair used while `p` is processed addresses a cell of the table. -/
def Grapheme.windowInTable (g : Grapheme) (p : Point) : Bool :=
  (g.visitedIndices p).all g.inTable

/-- The two nested loops of lines 242-254 over the neighbours `ns` still to examine:
a neighbour whose cell of `visited` reads false and that is similar to the start pixel
is pushed on the queue `Q` and its cell is set (`marked`). Returns the queue and the
marked points. -/
def Grapheme.visitNeighbours (g : Grapheme) (memory : Int → Int → Bool) (start : Point) :
    List Point → List Point → List Point → List Point × List Point
  | [], Q, marked => (Q, marked)
  | n :: ns, Q, marked =>
    if g.isVisited memory marked n = false ∧ g.similarToStart start n = true then
      g.visitNeighbours memory start ns (Q ++ [n]) (n :: marked)
    else g.visitNeighbours memory start ns Q marked

/-- The loop `while (!Q.empty())` of `isReachable` (lines 229-255) from the queue `Q`, the
marked points and the flag `ok` (every access so far was inside the table); the first
argument bounds the number of points taken from the queue. -/
def Grapheme.reachLoop (g : Grapheme) (memory : Int → Int → Bool) (start finish : Point) :
    Nat → List Point → List Point → Bool → Run Bool
  | 0, _, _, _ => Run.unfinished
  | _ + 1, [], _, ok => Run.returned false ok
  | fuel + 1, p :: Q, marked, ok =>
    if p = finish then Run.returned true ok
    else
      let next := g.visitNeighbours memory start (g.neighbours p) Q marked
      g.reachLoop memory start finish fuel next.1 next.2 (ok && g.windowInTable p)

/-- Number of cells any neighbour can lie in, `[left, right - 1] x [top, bottom]`,
plus two: more points than a traversal can ever take from its queue. -/
def Grapheme.traversalBound (g : Grapheme) : Nat :=
  (g.right - g.left).toNat * (g.bottom + 1 - g.top).toNat + 2

/-- Method `Grapheme::isReachable(start, end)`: the table is allocated, with the content
`memory`, then the queue holds `start` and the loop runs. -/
def Grapheme.isReachable (g : Grapheme) (memory : Int → Int → Bool) (start finish : Point) :
    Run Bool :=
  if g.tableAllocates = true then
    g.reachLoop memory start finish g.traversalBound [start] [] true
  else Run.threw

/-! ## `Grapheme::findContiguousShape` (`Grapheme.cpp`, lines 159-207) -/

/-- Lines 179-186: the four tests that extend the current extent by the point `p`. -/
def Box.extend (extent : Box) (p : Point) : Box :=
  let lowX := if p.x < extent.low.x then p.x else extent.low.x
  let highX := if p.x > extent.high.x then p.x else extent.high.x
  let lowY := if p.y < extent.low.y then p.y else extent.low.y
  let highY := if p.y > extent.high.y then p.y else extent.high.y
  { low := Point.mk lowX lowY, high := Point.mk highX highY }

/-- The loop `while (!Q.empty())` of `findContiguousShape` (lines 173-205) from the queue
`Q`, the marked points, the current extent and the flag `ok`; its neighbour loops
(lines 188-204) are word for word those of `isReachable`. The first argument bounds
the number of points taken from the queue. -/
def Grapheme.shapeLoop (g : Grapheme) (memory : Int → Int → Bool) (start : Point) :
    Nat → List Point → List Point → Box → Bool → Run Box
  | 0, _, _, _, _ => Run.unfinished
  | _ + 1, [], _, extent, ok => Run.returned extent ok
  | fuel + 1, p :: Q, marked, extent, ok =>
    let next := g.visitNeighbours memory start (g.neighbours p) Q marked
    g.shapeLoop memory start fuel next.1 next.2 (extent.extend p)
      (ok && g.windowInTable p)

/-- Method `Grapheme::findContiguousShape(start)`: the extent is the single point `start`,
the table is allocated, with the content `memory`, then the queue holds `start` and
the loop runs. -/
def Grapheme.findContiguousShape (g : Grapheme) (memory : Int → Int → Bool)
    (start : Point) : Run Box :=
  if g.tableAllocates = true then
    g.shapeLoop memory start g.traversalBound [start] []
      { low := Point.mk start.x start.y, high := Point.mk start.x start.y } true
  else Run.threw

/-- The points that the loop of `findContiguousShape` takes from its queue, in order,
from the queue `Q` and the marked points. -/
def Grapheme.takenFrom (g : Grapheme) (memory : Int → Int → Bool) (start : Point) :
    Nat → List Point → List Point → Option (List Point)
  | 0, _, _ => none
  | _ + 1, [], _ => some []
  | fuel + 1, p :: Q, marked =>
    let next := g.visitNeighbours memory start (g.neighbours p) Q marked
    match g.takenFrom memory start fuel next.1 next.2 with
    | none => none
    | some ps => some (p :: ps)

/-- The points visited by `findContiguousShape(start)`: all that its loop takes from the
queue, in order. -/
def Grapheme.shapeVisits (g : Grapheme) (memory : Int → Int → Bool) (start : Point) :
    Option (List Point) :=
  g.takenFrom memory start g.traversalBound [start] []

/-! ## `Grapheme::countHoles` (`Grapheme.cpp`, lines 265-299) -/

/-- Modelled from the spec: `operator<` of `struct Point` from the missing header
`Grapheme.h`, the order of the `std::set<Point>`: lexicographic on `(x, y)`. -/
def Point.less (a b : Point) : Bool :=
  decide (a.x < b.x) || (decide (a.x = b.x) && decide (a.y < b.y))

/-- Insertion `std::set<Point>::insert` on the set kept as its sorted list of elements. -/
def setInsert (p : Point) : List Point → List Point
  | [] => [p]
  | q :: qs =>
    if Point.less p q then p :: q :: qs
    else if Point.less q p then q :: setInsert p qs
    else q :: qs

/-- Line 268: `int spacing = (right - left) / 10;` (C++ division truncates). -/
def Grapheme.spacing (g : Grapheme) : Int :=
  Int.tdiv (g.right - g.left) 10

/-- Inner sampling loop `for (y = ...; y < bottom; y += spacing)` of lines 274-279 in
column `x`, from the current `y`, set and flag; the first argument bounds the number
of iterations. The call `isReachable(corner, current)` finds the content
`heap corner current` in its table. -/
def Grapheme.sampleColumn (g : Grapheme) (heap : Point → Point → Int → Int → Bool)
    (x : Int) : Nat → Int → List Point → Bool → Run (List Point)
  | 0, _, _, _ => Run.unfinished
  | fuel + 1, y, unreachables, ok =>
    if y < g.bottom then
      match g.isReachable (heap (Point.mk g.left g.top) (Point.mk x y))
          (Point.mk g.left g.top) (Point.mk x y) with
      | Run.returned r ok1 =>
        g.sampleColumn heap x fuel (y + g.spacing)
          (if r then unreachables else setInsert (Point.mk x y) unreachables) (ok && ok1)
      | Run.threw => Run.threw
      | Run.unfinished => Run.unfinished
    else Run.returned unreachables ok

/-- Outer sampling loop `for (x = ...; x < right; x += spacing)` of lines 272-280, from
the current `x`, set and flag; the first argument bounds the number of iterations. -/
def Grapheme.sampleGrid (g : Grapheme) (heap : Point → Point → Int → Int → Bool) :
    Nat → Int → List Point → Bool → Run (List Point)
  | 0, _, _, _ => Run.unfinished
  | fuel + 1, x, unreachables, ok =>
    if x < g.right then
      match g.sampleColumn heap x fuel g.top unreachables ok with
      | Run.returned u ok1 => g.sampleGrid heap fuel (x + g.spacing) u ok1
      | Run.threw => Run.threw
      | Run.unfinished => Run.unfinished
    else Run.returned unreachables ok

/-- Inner loop of lines 288-296: is some later element `j` reachable from `subject`
(the loop breaks at the first one). The call `isReachable(subject, j)` finds the
content `heap subject j` in its table. -/
def Grapheme.reachesAny (g : Grapheme) (heap : Point → Point → Int → Int → Bool)
    (subject : Point) : List Point → Bool → Run Bool
  | [], ok => Run.returned false ok
  | j :: js, ok =>
    match g.isReachable (heap subject j) subject j with
    | Run.returned true ok1 => Run.returned true (ok && ok1)
    | Run.returned false ok1 => g.reachesAny heap subject js (ok && ok1)
    | Run.threw => Run.threw
    | Run.unfinished => Run.unfinished

/-- Outer loop of lines 282-297 over the elements of the set from `subject` on: the
subject is erased when a later element is reachable from it. Returns what is left. -/
def Grapheme.mergeReachable (g : Grapheme) (heap : Point → Point → Int → Int → Bool) :
    List Point → Bool → Run (List Point)
  | [], ok => Run.returned [] ok
  | subject :: rest, ok =>
    match g.reachesAny heap subject rest ok with
    | Run.returned erased ok1 =>
      match g.mergeReachable heap rest ok1 with
      | Run.returned kept ok2 => Run.returned (if erased then kept else subject :: kept) ok2
      | Run.threw => Run.threw
      | Run.unfinished => Run.unfinished
    | Run.threw => Run.threw
    | Run.unfinished => Run.unfinished

/-- Method `Grapheme::countHoles`, the size of the set as `unsigned short`; `heap` gives
the content that each call of `isReachable` finds in its table and `fuel` bounds the
iterations of the sampling loops. (The calls of one run that read their table differ
in their pair of points, so `heap` can give every such call a content of its own.) -/
def Grapheme.countHoles (g : Grapheme) (heap : Point → Point → Int → Int → Bool)
    (fuel : Nat) : Run Nat :=
  match g.sampleGrid heap fuel g.left [] true with
  | Run.returned unreachables ok =>
    match g.mergeReachable heap unreachables ok with
    | Run.returned kept ok1 => Run.returned (kept.length % 65536) ok1
    | Run.threw => Run.threw
    | Run.unfinished => Run.unfinished
  | Run.threw => Run.threw
  | Run.unfinished => Run.unfinished

/-- A table whose cells all read false when it is allocated, as on a zero-filled heap;
so do the bytes past its columns. -/
def cleanMemory : Int → Int → Bool :=
  fun _ _ => false

/-- A heap on which every call of `isReachable` finds `cleanMemory`. -/
def cleanHeap : Point → Point → Int → Int → Bool :=
  fun _ _ => cleanMemory

/-! ## `Page::Read` (`Page.cpp`, lines 66-100) -/

/-- The font handed from `main` to `Page` and on to every `Line`; class `Font` is
declared in the missing header `Font.h` and built from a font name. -/
structure Font where
  name : String
deriving DecidableEq, Repr

/-- Modelled from the spec: class `Line` (`Line.h` and `Line.cpp` are not among the
sources), the value built by `Line(image, top, bottom, font)`: a band of rows
`[top, bottom]` of the shared image. -/
structure Line where
  image : BMP
  top : Int
  bottom : Int
  font : Font

/-- Members of class `Page` that `Read` uses. -/
structure Page where
  image : BMP
  font : Font

/-- Locals of `Page::Read` together with the member `lines`. -/
structure LineScan where
  top : Int
  bottom : Int
  inRow : Bool
  lines : List Line

/-- Lines 77-80: `for (col = 0; col < width && !fgFound; ++col)` looking for a
foreground pixel in `row`. -/
def Page.rowHasInk (p : Page) (row : Int) : Bool :=
  (intRange 0 (p.image.Width - 1)).any (fun col => isForeground (p.image.pixel col row))

/-- Body of the loop over the rows (lines 75-95). -/
def Page.scanRow (p : Page) (s : LineScan) (row : Int) : LineScan :=
  let fgFound := p.rowHasInk row
  if fgFound = true ∧ s.inRow = false then
    { s with top := row, inRow := true }
  else if fgFound = false ∧ s.inRow = true then
    { s with
      bottom := row - 1
      lines := s.lines ++ [Line.mk p.image s.top (row - 1) p.font]
      inRow := false }
  else s

/-- Lines 69-95: the member `lines` after the loop over the rows `0 .. height - 1`. -/
def Page.divide (p : Page) : List Line :=
  ((intRange 0 (p.image.Height - 1)).foldl p.scanRow
    { top := 0, bottom := 0, inRow := false, lines := [] }).lines

/-- Method `Page::Read`: the texts of the lines, each followed by a newline. `Line::Read` is
not among the sources and is the parameter `lineRead`. -/
def Page.Read (lineRead : Line → String) (p : Page) : String :=
  p.divide.foldl (fun result l => result ++ (lineRead l ++ "\n")) ""

/-- The `(top, bottom)` pairs of the lines of `Page::Read`, in order. -/
def Page.bands (p : Page) : List (Int × Int) :=
  p.divide.map (fun l => (l.top, l.bottom))

/-! ## Specification-side notions for `Page::Read` -/

/-- Rows `t .. b` are a maximal run of rows with ink that is closed by an all-background
row of the image: it starts at row 0 or right after a background row, every row of it
has ink, and row `b + 1` exists and has none. -/
def Page.IsClosedRun (p : Page) (t b : Int) : Prop :=
  0 ≤ t ∧ t ≤ b ∧ b + 1 < p.image.Height ∧
  (∀ r, t ≤ r → r ≤ b → p.rowHasInk r = true) ∧
  p.rowHasInk (b + 1) = false ∧
  (t = 0 ∨ p.rowHasInk (t - 1) = false)

/-- The locals and `lines` after the rows `0 .. n - 1` have been scanned. -/
def Page.scanTo (p : Page) (n : Nat) : LineScan :=
  ((List.range n).map (fun (i : Nat) => (0 : Int) + (i : Int))).foldl p.scanRow
    { top := 0, bottom := 0, inRow := false, lines := [] }

/-- The `(top, bottom)` pairs of a list of lines. -/
def bandsOf (ls : List Line) : List (Int × Int) :=
  ls.map (fun l => (l.top, l.bottom))

/-- What holds of the scan state `s` once the rows `0 .. n - 1` are done. -/
structure Page.ScanInv (p : Page) (n : Nat) (s : LineScan) : Prop where
  emitted : ∀ t b, (t, b) ∈ bandsOf s.lines ↔
    (0 ≤ t ∧ t ≤ b ∧ (∀ r, t ≤ r → r ≤ b → p.rowHasInk r = true) ∧
      p.rowHasInk (b + 1) = false ∧ (t = 0 ∨ p.rowHasInk (t - 1) = false)) ∧ b + 1 < n
  ordered : (bandsOf s.lines).Pairwise (fun a b => a.2 + 1 < b.1)
  nonempty : ∀ a ∈ bandsOf s.lines, a.1 ≤ a.2
  openRun : s.inRow = true →
    0 ≤ s.top ∧ s.top < n ∧ (∀ r, s.top ≤ r → r < n → p.rowHasInk r = true) ∧
      (s.top = 0 ∨ p.rowHasInk (s.top - 1) = false) ∧
      ∀ a ∈ bandsOf s.lines, a.2 + 1 < s.top
  closed : s.inRow = false → n = 0 ∨ p.rowHasInk ((n : Int) - 1) = false

/-- Band `a` lies wholly above band `b`, with a row between them; both are non-empty. -/
def bandBefore (a b : Int × Int) : Prop :=
  a.1 ≤ a.2 ∧ b.1 ≤ b.2 ∧ a.2 + 1 < b.1

instance bandBefore_antisymm : IsAntisymm (Int × Int) bandBefore :=
  ⟨fun a b h1 h2 => by
    unfold bandBefore at h1 h2
    omega⟩

instance bandBefore_irrefl : IsIrrefl (Int × Int) bandBefore :=
  ⟨fun a h => by
    unfold bandBefore at h
    omega⟩

/-! ## Specification-side notions for the traversals -/

/-- Point `p` lies in the window `[left, right - 1] x [top, bottom]` that bounds every
neighbour the traversals examine. -/
def Grapheme.InClip (g : Grapheme) (p : Point) : Prop :=
  g.left ≤ p.x ∧ p.x ≤ g.right - 1 ∧ g.top ≤ p.y ∧ p.y ≤ g.bottom

/-- One step of a traversal started at `start`: `n` is examined as a neighbour of `p` and
its colour is similar to the colour of the start pixel. -/
def Grapheme.Edge (g : Grapheme) (start p n : Point) : Prop :=
  n ∈ g.neighbours p ∧ g.similarToStart start n = true

/-- Points `p` and `q` are 8-adjacent (or equal), lie in the window of `g`, and the
colour of each is similar both to the colour of `a` and to the colour of `b`. -/
def Grapheme.Linked (g : Grapheme) (a b p q : Point) : Prop :=
  (p.x - 1 ≤ q.x ∧ q.x ≤ p.x + 1 ∧ p.y - 1 ≤ q.y ∧ q.y ≤ p.y + 1) ∧
  (g.InClip p ∧ g.similarToStart a p = true ∧ g.similarToStart b p = true) ∧
  (g.InClip q ∧ g.similarToStart a q = true ∧ g.similarToStart b q = true)

/-- Point `p` lies inside the region of `g`, the bounds `right` and `bottom` excluded. -/
def Grapheme.Inside (g : Grapheme) (p : Point) : Prop :=
  g.left ≤ p.x ∧ p.x < g.right ∧ g.top ≤ p.y ∧ p.y < g.bottom

/-- Points `p` and `q` are adjacent pixels inside the region of `g`. -/
def Grapheme.AdjacentInside (g : Grapheme) (p q : Point) : Prop :=
  (p.x - 1 ≤ q.x ∧ q.x ≤ p.x + 1 ∧ p.y - 1 ≤ q.y ∧ q.y ≤ p.y + 1) ∧
  g.Inside p ∧ g.Inside q

/-- Every cell of the table reads false when it is allocated. -/
def Grapheme.CleanTable (g : Grapheme) (memory : Int → Int → Bool) : Prop :=
  ∀ i j, g.inTable (i, j) = true → memory i j = false

/-- The point `start` lies above the row `bottom - 2`, and no pixel of that row between
the columns `left` and `right - 1` is similar in colour to the start pixel. A
chain of steps from `start` cannot cross that row, so `start` is then confined. -/
def Grapheme.Fenced (g : Grapheme) (start : Point) : Prop :=
  start.y + 2 < g.bottom ∧
    ∀ x, g.left ≤ x → x ≤ g.right - 1 →
      g.similarToStart start (Point.mk x (g.bottom - 2)) = false

/-- Every point that a chain of steps joins to `start` lies above the row `bottom - 2`
(`start` itself included). A traversal from `start` then stays inside the table: the
window around a point above that row ends in the row `bottom - 1` at most, while the
window around a point of the row `bottom - 2` or below reaches the row `bottom`. -/
def Grapheme.Confined (g : Grapheme) (start : Point) : Prop :=
  ∀ q, Relation.ReflTransGen (g.Edge start) start q → q.y + 2 < g.bottom
/-! ## The pixels that `pareDown` reads -/

/-- The coordinates that the inner loop of the top and bottom steps passes to the image
in row `row`: `image(col, row)` for `col = left .. right`. -/
def rowCoords (left right row : Int) : List (Int × Int) :=
  (intRange left right).map (fun col => (col, row))

/-- The coordinates that the inner loop of the left and right steps passes to the image
in column `col`: `image(col, row)` for `row = top .. bottom`. -/
def colCoords (top bottom col : Int) : List (Int × Int) :=
  (intRange top bottom).map (fun row => (col, row))

/-- The coordinates read by the loop `pareUp`, where `reads i` lists those of its body
at index `i`. -/
def pareUpReads (test : Int → Bool) (reads : Int → List (Int × Int)) (hi : Int) :
    Nat → Int → Bool → List (Int × Int)
  | 0, _, _ => []
  | n + 1, i, fgFound =>
    if i ≤ hi ∧ fgFound = false then
      reads i ++ pareUpReads test reads hi n (i + 1) (fgFound || test i)
    else []

/-- The coordinates read by the loop `pareDownward`, where `reads i` lists those of its
body at index `i`. -/
def pareDownwardReads (test : Int → Bool) (reads : Int → List (Int × Int)) (lo : Int) :
    Nat → Int → Bool → List (Int × Int)
  | 0, _, _ => []
  | n + 1, i, fgFound =>
    if i ≥ lo ∧ fgFound = false then
      reads i ++ pareDownwardReads test reads lo n (i - 1) (fgFound || test i)
    else []

/-- All coordinates `(col, row)` that `Grapheme::pareDown` passes to `image(col, row)`, in
order: those of the top, bottom, left and right loops. -/
def Grapheme.pareDownReads (g : Grapheme) : List (Int × Int) :=
  let top := (pareUp (fun t => rowHasForeground g.image g.left g.right t) g.bottom
    (g.bottom + 1 - g.top).toNat g.top false).1
  let bottom := (pareDownward (fun _ => rowHasForeground g.image g.left g.right top) top
    (g.bottom + 1 - top).toNat g.bottom false).1
  let left := (pareUp (fun l => colHasForeground g.image top bottom l) g.right
    (g.right + 1 - g.left).toNat g.left false).1
  pareUpReads (fun t => rowHasForeground g.image g.left g.right t)
      (fun t => rowCoords g.left g.right t) g.bottom
      (g.bottom + 1 - g.top).toNat g.top false
    ++ pareDownwardReads (fun _ => rowHasForeground g.image g.left g.right top)
      (fun _ => rowCoords g.left g.right top) top
      (g.bottom + 1 - top).toNat g.bottom false
    ++ pareUpReads (fun l => colHasForeground g.image top bottom l)
      (fun l => colCoords top bottom l) g.right
      (g.right + 1 - g.left).toNat g.left false
    ++ pareDownwardReads (fun r => colHasForeground g.image top bottom r)
      (fun r => colCoords top bottom r) left
      (g.right + 1 - left).toNat g.right false

/-! ## Concrete inputs -/

/-- Grey pixel of level `v`. -/
def grey (v : Nat) : RGBApixel :=
  { Blue := v, Green := v, Red := v, Alpha := 0 }

/-- The bitmap whose rows of grey levels are listed top to bottom. A coordinate outside
the range is truncated to the range, as EasyBMP does. -/
def bitmapOfRows (rows : List (List Nat)) : BMP :=
  { Width := ((rows.headD []).length : Int)
    Height := (rows.length : Int)
    pixel := fun col row =>
      let j := if row ≥ (rows.length : Int) then (rows.length : Int) - 1 else row
      let j := if j < 0 then 0 else j
      let r := rows.getD j.toNat []
      let i := if col ≥ (r.length : Int) then (r.length : Int) - 1 else col
      let i := if i < 0 then 0 else i
      grey (r.getD i.toNat 255) }

/-- Three dark pixels of levels 9, 0 and 18 in a row, above a light row. -/
def driftRow : Grapheme :=
  Grapheme.ofPart (bitmapOfRows [[9, 0, 18], [200, 200, 200]]) 0 0 3 1

/-- A uniform dark bitmap of three columns and two rows. -/
def darkPatch : Grapheme :=
  Grapheme.ofPart (bitmapOfRows [[0, 0, 0], [0, 0, 0]]) 0 0 3 1

/-- A solid dark bar, four pixels wide and two high, on a light background; the region
is ten pixels wide and leaves a margin of background on every side of the bar. -/
def solidBar : Grapheme :=
  Grapheme.ofPart (bitmapOfRows
    [[255, 255, 255, 255, 255, 255, 255, 255, 255, 255],
     [255, 255, 255, 0, 0, 0, 0, 255, 255, 255],
     [255, 255, 255, 0, 0, 0, 0, 255, 255, 255],
     [255, 255, 255, 255, 255, 255, 255, 255, 255, 255]]) 0 0 10 3

/-- A dark ring, columns 2 to 7 and rows 1 to 3, around the light pixels of columns 3 to
6 in row 2, on a light background; the region is ten pixels wide. -/
def inkRing : Grapheme :=
  Grapheme.ofPart (bitmapOfRows
    [[255, 255, 255, 255, 255, 255, 255, 255, 255, 255],
     [255, 255, 0, 0, 0, 0, 0, 0, 255, 255],
     [255, 255, 0, 255, 255, 255, 255, 0, 255, 255],
     [255, 255, 0, 0, 0, 0, 0, 0, 255, 255],
     [255, 255, 255, 255, 255, 255, 255, 255, 255, 255]]) 0 0 10 4

/-- A region five pixels wide and five high over a light bitmap. -/
def narrowRegion : Grapheme :=
  Grapheme.ofPart (bitmapOfRows
    [[255, 255, 255, 255, 255, 255],
     [255, 255, 255, 255, 255, 255],
     [255, 255, 255, 255, 255, 255],
     [255, 255, 255, 255, 255, 255],
     [255, 255, 255, 255, 255, 255],
     [255, 255, 255, 255, 255, 255]]) 0 0 5 5

/-- A filled dark rectangle, columns 1 to 3 and rows 1 to 3, on a light bitmap of six
columns and six rows; the region is the whole bitmap, `(0, 0, 5, 5)`. -/
def filledRectangle : Grapheme :=
  Grapheme.ofPart (bitmapOfRows
    [[255, 255, 255, 255, 255, 255],
     [255, 0, 0, 0, 255, 255],
     [255, 0, 0, 0, 255, 255],
     [255, 0, 0, 0, 255, 255],
     [255, 255, 255, 255, 255, 255],
     [255, 255, 255, 255, 255, 255]]) 0 0 5 5

/-- A bitmap of five columns and five rows, all dark; the region is the whole bitmap,
`(0, 0, 4, 4)`. -/
def darkSquare : Grapheme :=
  Grapheme.ofPart (bitmapOfRows
    [[0, 0, 0, 0, 0],
     [0, 0, 0, 0, 0],
     [0, 0, 0, 0, 0],
     [0, 0, 0, 0, 0],
     [0, 0, 0, 0, 0]]) 0 0 4 4

/-- A bitmap of three columns and three rows, all light; the region is the whole
bitmap, `(0, 0, 2, 2)`. -/
def lightSquare : Grapheme :=
  Grapheme.ofPart (bitmapOfRows [[255, 255, 255], [255, 255, 255], [255, 255, 255]]) 0 0 2 2

/-- A page of grey rows: every row of the bitmap is one pixel wide. -/
def pageOfRows (levels : List Nat) : Page :=
  { image := bitmapOfRows (levels.map (fun v => [v])), font := { name := "" } }
/-- A column of three pixels, dark, light, dark, with the region `(0, 0, 1, 2)`. -/
def stackedColumn : Grapheme :=
  Grapheme.ofPart (bitmapOfRows [[0], [200], [0]]) 0 0 1 2

/-- The whole-image grapheme of a bitmap of two columns and two rows with one dark pixel
at `(0, 0)`. -/
def cornerInk : Grapheme :=
  Grapheme.ofImage (bitmapOfRows [[0, 255], [255, 255]])

/-- A row of ten pixels with the levels 18, 0 and 9 in columns 1 to 3 and light pixels
elsewhere, above a light row; the region is `(0, 0, 10, 1)`. -/
def driftHoles : Grapheme :=
  Grapheme.ofPart (bitmapOfRows
    [[255, 18, 0, 9, 255, 255, 255, 255, 255, 255],
     [255, 255, 255, 255, 255, 255, 255, 255, 255, 255]]) 0 0 10 1


/-- The rectangle that `pareDown` leaves of `lightSquare`, `(3, 3, 2, 2)`: `right < left`
and `bottom < top`. -/
def emptiedSquare : Grapheme :=
  lightSquare.pareDown

/-- Three dark pixels of levels 9, 0 and 18 in a row, above three light rows; the region
is `(0, 0, 3, 3)`, so the table has the rows 0 to 2 and the light row 1 fences the
dark pixels off from the rows below. -/
def driftBand : Grapheme :=
  Grapheme.ofPart (bitmapOfRows
    [[9, 0, 18], [200, 200, 200], [200, 200, 200], [200, 200, 200]]) 0 0 3 3

/-- Two dark rows of three pixels above two light rows; the region is `(0, 0, 3, 4)`, so
the table has the rows 0 to 3 and the light row 2 fences the dark pixels off from the
rows below. -/
def darkBand : Grapheme :=
  Grapheme.ofPart (bitmapOfRows
    [[0, 0, 0], [0, 0, 0], [200, 200, 200], [200, 200, 200]]) 0 0 3 4

/-- A dark column of 25 pixels with the region `(0, 0, 1, 24)`: the table is one column
of 24 cells, the rows 0 to 23. -/
def darkColumn : Grapheme :=
  Grapheme.ofPart (bitmapOfRows (List.replicate 25 [0])) 0 0 1 24

/-- A table of 24 rows that reads false in every cell, followed by bytes that read true
(index 24 and beyond). -/
def memoryPast24 : Int → Int → Bool :=
  fun _ j => decide (24 ≤ j)

/-- A strip of 30 columns: in row 0 three light pixels, then the levels 18, five times 0,
and 9, then light pixels; row 1 has the level 100 throughout and row 2 is light. The
region is `(0, 0, 30, 3)`, so the stride is 3, the samples lie in row 0, and row 1
fences every sample off from the rows below. -/
def fencedStrip : Grapheme :=
  Grapheme.ofPart (bitmapOfRows
    [[255, 255, 255, 18, 0, 0, 0, 0, 0, 9] ++ List.replicate 20 255,
     List.replicate 30 100,
     List.replicate 30 255]) 0 0 30 3


/-! ## Counted loops -/

/-- The index values of a counted loop from `lo` to `hi` are the integers between them. -/
theorem mem_intRange {lo hi x : Int} : x ∈ intRange lo hi ↔ lo ≤ x ∧ x ≤ hi := by
  unfold intRange
  simp only [List.mem_map, List.mem_range]
  constructor
  · rintro ⟨i, hlt, rfl⟩
    omega
  · intro h
    exact ⟨(x - lo).toNat, by omega, by omega⟩

/-! ## `Grapheme::pareDown` -/

/-- The upward loop ends by its own condition: given at least as many steps as there are
index values from `i` to `hi`, which is the count `pareDown` passes, the final state
falsifies `i <= hi && !fgFound`. -/
theorem pareUp_stops (test : Int → Bool) (hi : Int) :
    ∀ (n : Nat) (i : Int) (fgFound : Bool), (hi + 1 - i).toNat ≤ n →
      ¬ ((pareUp test hi n i fgFound).1 ≤ hi ∧ (pareUp test hi n i fgFound).2 = false) := by
  intro n
  induction n with
  | zero =>
    intro i fgFound hn
    simp only [pareUp]
    omega
  | succ n ih =>
    intro i fgFound hn
    simp only [pareUp]
    split_ifs with hc
    · exact ih (i + 1) _ (by omega)
    · exact hc

/-- The downward loop ends by its own condition: given at least as many steps as there
are index values from `lo` to `i`, the final state falsifies `i >= lo && !fgFound`. -/
theorem pareDownward_stops (test : Int → Bool) (lo : Int) :
    ∀ (n : Nat) (i : Int) (fgFound : Bool), (i + 1 - lo).toNat ≤ n →
      ¬ ((pareDownward test lo n i fgFound).1 ≥ lo ∧
          (pareDownward test lo n i fgFound).2 = false) := by
  intro n
  induction n with
  | zero =>
    intro i fgFound hn
    simp only [pareDownward]
    omega
  | succ n ih =>
    intro i fgFound hn
    simp only [pareDownward]
    split_ifs with hc
    · exact ih (i - 1) _ (by omega)
    · exact hc

/-- When no index value from `i` to `hi` passes the test, the upward loop runs to
`hi + 1` (or stays at `i` when `i > hi`). -/
theorem pareUp_of_all_false (test : Int → Bool) (hi : Int) :
    ∀ (n : Nat) (i : Int), (hi + 1 - i).toNat ≤ n →
      (∀ j, i ≤ j → j ≤ hi → test j = false) →
      pareUp test hi n i false = (max i (hi + 1), false) := by
  intro n
  induction n with
  | zero =>
    intro i hn _
    simp only [pareUp]
    rw [max_eq_left (show hi + 1 ≤ i by omega)]
  | succ n ih =>
    intro i hn hall
    simp only [pareUp]
    split_ifs with hc
    · rw [hall i le_rfl hc.1, Bool.or_false, ih (i + 1) (by omega)
        (fun j h1 h2 => hall j (by omega) h2)]
      have h1 := hc.1
      rw [max_eq_right (show i + 1 ≤ hi + 1 by omega), max_eq_right (show i ≤ hi + 1 by omega)]
    · have h1 : hi + 1 ≤ i := by
        by_contra hcon
        exact hc (by simp; omega)
      rw [max_eq_left h1]

/-- When `k` is the first index value that passes the test, the upward loop ends at
`k + 1`: the increment of the loop header still runs after the flag was set. -/
theorem pareUp_of_first_hit (test : Int → Bool) (hi k : Int) (hk : k ≤ hi)
    (hit : test k = true) :
    ∀ (n : Nat) (i : Int), (hi + 1 - i).toNat ≤ n → i ≤ k →
      (∀ j, i ≤ j → j < k → test j = false) →
      pareUp test hi n i false = (k + 1, true) := by
  intro n
  induction n with
  | zero =>
    intro i hn hik _
    omega
  | succ n ih =>
    intro i hn hik hbefore
    have hc : i ≤ hi ∧ false = false := ⟨by omega, rfl⟩
    rw [pareUp, if_pos hc]
    rcases eq_or_lt_of_le hik with heq | hlt
    · subst heq
      rw [hit, Bool.false_or]
      cases n with
      | zero => rfl
      | succ n => simp [pareUp]
    · rw [hbefore i le_rfl hlt, Bool.or_false]
      exact ih (i + 1) (by omega) (by omega) (fun j h1 h2 => hbefore j (by omega) h2)

theorem rowHasForeground_eq_false {img : BMP} {left right row : Int}
    (h : ∀ col, left ≤ col → col ≤ right → isForeground (img.pixel col row) = false) :
    rowHasForeground img left right row = false := by
  unfold rowHasForeground
  rw [List.any_eq_false]
  intro col hcol
  rw [mem_intRange] at hcol
  simp [h col hcol.1 hcol.2]

/-- C6. On a region without any foreground pixel `pareDown` ends with an empty rectangle:
afterwards `left > right` or `top > bottom` (the top loop runs past `bottom`). -/
theorem pareDown_empty_of_no_foreground (g : Grapheme)
    (h : ∀ x y, g.left ≤ x → x ≤ g.right → g.top ≤ y → y ≤ g.bottom →
      isForeground (g.image.pixel x y) = false) :
    g.pareDown.left > g.pareDown.right ∨ g.pareDown.top > g.pareDown.bottom := by
  right
  have htop : (pareUp (fun t => rowHasForeground g.image g.left g.right t) g.bottom
      (g.bottom + 1 - g.top).toNat g.top false) = (max g.top (g.bottom + 1), false) :=
    pareUp_of_all_false _ _ _ _ le_rfl
      (fun j h1 h2 => rowHasForeground_eq_false (fun col hl hr => h col j hl hr h1 h2))
  simp only [Grapheme.pareDown, htop]
  have h0 : (g.bottom + 1 - max g.top (g.bottom + 1)).toNat = 0 := by
    have := le_max_right g.top (g.bottom + 1)
    omega
  rw [h0]
  simp only [pareDownward]
  have := le_max_right g.top (g.bottom + 1)
  omega


/-- Witness for C6: the all-light bitmap of three columns and three rows. -/
theorem pareDown_empty_of_no_foreground_witness :
    lightSquare.pareDown.left > lightSquare.pareDown.right ∨
      lightSquare.pareDown.top > lightSquare.pareDown.bottom :=
  pareDown_empty_of_no_foreground lightSquare (by
    intro x y h1 h2 h3 h4
    have e1 : lightSquare.left = 0 := rfl
    have e2 : lightSquare.right = 2 := rfl
    have e3 : lightSquare.top = 0 := rfl
    have e4 : lightSquare.bottom = 2 := rfl
    rw [e1] at h1
    rw [e2] at h2
    rw [e3] at h3
    rw [e4] at h4
    have hx : x = 0 ∨ x = 1 ∨ x = 2 := by omega
    have hy : y = 0 ∨ y = 1 ∨ y = 2 := by omega
    rcases hx with rfl | rfl | rfl <;> rcases hy with rfl | rfl | rfl <;> decide)

/-- C2, evaluated at a failing input. Around the filled rectangle with columns 1 to 3 and
rows 1 to 3, started from the superset rectangle `(0, 0, 5, 5)`, `pareDown` ends at
`(left, top, right, bottom) = (2, 2, 2, 4)` and not at the tightest box `(1, 1, 3, 3)`. -/
theorem pareDown_filledRectangle :
    filledRectangle.pareDown.rect = (2, 2, 2, 4) ∧
      filledRectangle.pareDown.rect ≠ (1, 1, 3, 3) := by
  decide

/-- C3, evaluated at a failing input. On the all-dark bitmap of five columns and rows with
the rectangle `(0, 0, 4, 4)`, one `pareDown` gives `(1, 1, 3, 3)` and a second one
gives `(2, 2, 2, 2)`: applying it twice differs from applying it once. -/
theorem pareDown_twice_darkSquare :
    darkSquare.pareDown.rect = (1, 1, 3, 3) ∧
      darkSquare.pareDown.pareDown.rect = (2, 2, 2, 2) ∧
      darkSquare.pareDown.pareDown.rect ≠ darkSquare.pareDown.rect := by
  decide

/-! ## The traversal of `isReachable` -/

theorem Grapheme.mem_neighbours (g : Grapheme) (p n : Point) :
    n ∈ g.neighbours p ↔
      ((if p.x - 1 > g.left then p.x - 1 else g.left) ≤ n.x ∧
        n.x ≤ (if p.x + 1 < g.right - 1 then p.x + 1 else g.right - 1)) ∧
      ((if p.y - 1 > g.top then p.y - 1 else g.top) ≤ n.y ∧
        n.y ≤ (if p.y + 1 < g.bottom - 1 then p.y + 1 else g.bottom)) := by
  unfold Grapheme.neighbours
  simp only [List.mem_flatMap, List.mem_map, mem_intRange]
  constructor
  · rintro ⟨x, hx, y, hy, rfl⟩
    exact ⟨hx, hy⟩
  · rintro ⟨hx, hy⟩
    exact ⟨n.x, hx, n.y, hy, rfl⟩

theorem Grapheme.inClip_of_mem_neighbours (g : Grapheme) (p n : Point)
    (h : n ∈ g.neighbours p) : g.InClip n := by
  rw [Grapheme.mem_neighbours] at h
  obtain ⟨⟨h1, h2⟩, h3, h4⟩ := h
  unfold Grapheme.InClip
  split_ifs at h1 h2 h3 h4 <;> omega

theorem Grapheme.mem_neighbours_of_adjacent (g : Grapheme) (p n : Point)
    (hx1 : p.x - 1 ≤ n.x) (hx2 : n.x ≤ p.x + 1) (hy1 : p.y - 1 ≤ n.y) (hy2 : n.y ≤ p.y + 1)
    (hn : g.InClip n) : n ∈ g.neighbours p := by
  rw [Grapheme.mem_neighbours]
  unfold Grapheme.InClip at hn
  obtain ⟨h1, h2, h3, h4⟩ := hn
  refine ⟨⟨?_, ?_⟩, ?_, ?_⟩ <;> split_ifs <;> omega

/-- Above the row `bottom - 2` the window of a point is the 8-neighbourhood clipped to
the table: every neighbour lies at most one row below and its index pair addresses a
cell of the table. -/
theorem Grapheme.neighbours_above (g : Grapheme) (p n : Point) (hp : p.y + 2 < g.bottom)
    (h : n ∈ g.neighbours p) :
    n.y ≤ p.y + 1 ∧ g.left ≤ n.x ∧ n.x ≤ g.right - 1 ∧
      g.inTable (n.x - g.left, n.y - g.top) = true := by
  rw [Grapheme.mem_neighbours] at h
  obtain ⟨⟨h1, h2⟩, h3, h4⟩ := h
  have hy : n.y ≤ p.y + 1 := by
    split_ifs at h4 <;> omega
  have hx1 : g.left ≤ n.x := by
    split_ifs at h1 <;> omega
  have hx2 : n.x ≤ g.right - 1 := by
    split_ifs at h2 <;> omega
  have hy1 : g.top ≤ n.y := by
    split_ifs at h3 <;> omega
  refine ⟨hy, hx1, hx2, ?_⟩
  simp only [Grapheme.inTable, Bool.and_eq_true, decide_eq_true_eq]
  omega

theorem Grapheme.windowInTable_above (g : Grapheme) (p : Point) (hp : p.y + 2 < g.bottom) :
    g.windowInTable p = true := by
  unfold Grapheme.windowInTable Grapheme.visitedIndices
  rw [List.all_eq_true]
  intro ij hij
  rw [List.mem_map] at hij
  obtain ⟨n, hn, rfl⟩ := hij
  exact (g.neighbours_above p n hp hn).2.2.2

theorem Grapheme.visitNeighbours_length (g : Grapheme) (memory : Int → Int → Bool)
    (start : Point) :
    ∀ (ns Q marked : List Point),
      (g.visitNeighbours memory start ns Q marked).1.length + marked.length =
        Q.length + (g.visitNeighbours memory start ns Q marked).2.length := by
  intro ns
  induction ns with
  | nil => intro Q marked; simp [Grapheme.visitNeighbours]
  | cons n ns ih =>
    intro Q marked
    simp only [Grapheme.visitNeighbours]
    split_ifs with hc
    · have := ih (Q ++ [n]) (n :: marked)
      simp only [List.length_append, List.length_cons, List.length_nil] at this
      omega
    · exact ih Q marked

theorem Grapheme.visitNeighbours_mono (g : Grapheme) (memory : Int → Int → Bool)
    (start : Point) :
    ∀ (ns Q marked : List Point),
      (∀ q ∈ Q, q ∈ (g.visitNeighbours memory start ns Q marked).1) ∧
      (∀ v ∈ marked, v ∈ (g.visitNeighbours memory start ns Q marked).2) := by
  intro ns
  induction ns with
  | nil => intro Q marked; simp [Grapheme.visitNeighbours]
  | cons n ns ih =>
    intro Q marked
    simp only [Grapheme.visitNeighbours]
    split_ifs with hc
    · obtain ⟨h1, h2⟩ := ih (Q ++ [n]) (n :: marked)
      exact ⟨fun q hq => h1 q (List.mem_append_left _ hq),
        fun v hv => h2 v (List.mem_cons_of_mem _ hv)⟩
    · exact ih Q marked

theorem Grapheme.visitNeighbours_marked (g : Grapheme) (memory : Int → Int → Bool)
    (start : Point) :
    ∀ (ns Q marked : List Point),
      ∀ v ∈ (g.visitNeighbours memory start ns Q marked).2,
        v ∈ marked ∨
          (v ∈ ns ∧ g.similarToStart start v = true ∧
            v ∈ (g.visitNeighbours memory start ns Q marked).1) := by
  intro ns
  induction ns with
  | nil => intro Q marked v hv; exact Or.inl hv
  | cons n ns ih =>
    intro Q marked v hv
    simp only [Grapheme.visitNeighbours] at hv ⊢
    split_ifs at hv ⊢ with hc
    · rcases ih (Q ++ [n]) (n :: marked) v hv with h | ⟨h1, h2, h3⟩
      · rcases List.mem_cons.1 h with rfl | h'
        · right
          exact ⟨List.mem_cons_self _ _, hc.2,
            (g.visitNeighbours_mono memory start ns (Q ++ [v]) (v :: marked)).1 v (by simp)⟩
        · exact Or.inl h'
      · exact Or.inr ⟨List.mem_cons_of_mem _ h1, h2, h3⟩
    · rcases ih Q marked v hv with h | ⟨h1, h2, h3⟩
      · exact Or.inl h
      · exact Or.inr ⟨List.mem_cons_of_mem _ h1, h2, h3⟩

theorem Grapheme.visitNeighbours_queued (g : Grapheme) (memory : Int → Int → Bool)
    (start : Point) :
    ∀ (ns Q marked : List Point),
      ∀ q ∈ (g.visitNeighbours memory start ns Q marked).1,
        q ∈ Q ∨ (q ∈ ns ∧ g.similarToStart start q = true) := by
  intro ns
  induction ns with
  | nil => intro Q marked q hq; exact Or.inl hq
  | cons n ns ih =>
    intro Q marked q hq
    simp only [Grapheme.visitNeighbours] at hq
    split_ifs at hq with hc
    · rcases ih (Q ++ [n]) (n :: marked) q hq with h | ⟨h1, h2⟩
      · rcases List.mem_append.1 h with h' | h'
        · exact Or.inl h'
        · rw [List.mem_singleton] at h'
          subst h'
          exact Or.inr ⟨List.mem_cons_self _ _, hc.2⟩
      · exact Or.inr ⟨List.mem_cons_of_mem _ h1, h2⟩
    · rcases ih Q marked q hq with h | ⟨h1, h2⟩
      · exact Or.inl h
      · exact Or.inr ⟨List.mem_cons_of_mem _ h1, h2⟩

/-- After the neighbour loops every similar neighbour is marked, unless its cell read
true from the start. -/
theorem Grapheme.visitNeighbours_covers (g : Grapheme) (memory : Int → Int → Bool)
    (start : Point) :
    ∀ (ns Q marked : List Point),
      ∀ n ∈ ns, g.similarToStart start n = true →
        memory (n.x - g.left) (n.y - g.top) = false →
        n ∈ (g.visitNeighbours memory start ns Q marked).2 := by
  intro ns
  induction ns with
  | nil => intro Q marked n hn; simp at hn
  | cons m ns ih =>
    intro Q marked n hn hsim hmem
    simp only [Grapheme.visitNeighbours]
    rcases List.mem_cons.1 hn with rfl | hn'
    · split_ifs with hc
      · exact (g.visitNeighbours_mono memory start ns _ _).2 n (List.mem_cons_self _ _)
      · have hv : n ∈ marked := by
          by_contra hnot
          apply hc
          refine ⟨?_, hsim⟩
          simp [Grapheme.isVisited, hmem, hnot]
        exact (g.visitNeighbours_mono memory start ns _ _).2 n hv
    · split_ifs with hc
      · exact ih _ _ n hn' hsim hmem
      · exact ih _ _ n hn' hsim hmem

theorem Grapheme.visitNeighbours_nodup (g : Grapheme) (memory : Int → Int → Bool)
    (start : Point) :
    ∀ (ns Q marked : List Point), marked.Nodup →
      (g.visitNeighbours memory start ns Q marked).2.Nodup := by
  intro ns
  induction ns with
  | nil => intro Q marked h; exact h
  | cons n ns ih =>
    intro Q marked h
    simp only [Grapheme.visitNeighbours]
    split_ifs with hc
    · refine ih _ _ (List.nodup_cons.2 ⟨?_, h⟩)
      intro hn
      have := hc.1
      simp [Grapheme.isVisited, hn] at this
    · exact ih _ _ h

theorem Grapheme.length_le_of_inClip (g : Grapheme) (visited : List Point)
    (hnd : visited.Nodup) (hclip : ∀ v ∈ visited, g.InClip v) :
    visited.length ≤ (g.right - g.left).toNat * (g.bottom + 1 - g.top).toNat := by
  have hinj : Function.Injective (fun p : Point => (p.x, p.y)) := by
    rintro ⟨x1, y1⟩ ⟨x2, y2⟩ h
    simp only [Prod.mk.injEq] at h
    rw [h.1, h.2]
  have hsub : visited.toFinset.image (fun p : Point => (p.x, p.y)) ⊆
      Finset.Icc g.left (g.right - 1) ×ˢ Finset.Icc g.top g.bottom := by
    intro a ha
    rw [Finset.mem_image] at ha
    obtain ⟨v, hv, rfl⟩ := ha
    rw [List.mem_toFinset] at hv
    have := hclip v hv
    unfold Grapheme.InClip at this
    simp only [Finset.mem_product, Finset.mem_Icc]
    omega
  have hcard := Finset.card_le_card hsub
  rw [Finset.card_image_of_injective _ hinj, List.toFinset_card_of_nodup hnd,
    Finset.card_product, Int.card_Icc, Int.card_Icc] at hcard
  have e : g.right - 1 + 1 - g.left = g.right - g.left := by omega
  rw [e] at hcard
  exact hcard

/-- The loop of `isReachable` ends within the bound, whatever the table held at the
start: a cell is marked only once and lies in the window, and each point taken from
the queue lowers the number of queued points plus unmarked cells by one. -/
theorem Grapheme.reachLoop_finishes (g : Grapheme) (memory : Int → Int → Bool)
    (start finish : Point) :
    ∀ (fuel : Nat) (Q marked : List Point) (ok : Bool), marked.Nodup →
      (∀ v ∈ marked, g.InClip v) →
      Q.length + (g.right - g.left).toNat * (g.bottom + 1 - g.top).toNat
        < fuel + marked.length →
      ∃ value inTable,
        g.reachLoop memory start finish fuel Q marked ok = Run.returned value inTable := by
  intro fuel
  induction fuel with
  | zero =>
    intro Q marked ok hnd hclip hlt
    have := g.length_le_of_inClip marked hnd hclip
    omega
  | succ fuel ih =>
    intro Q marked ok hnd hclip hlt
    cases Q with
    | nil => exact ⟨false, ok, rfl⟩
    | cons p Q =>
      simp only [Grapheme.reachLoop]
      split_ifs with hp
      · exact ⟨true, ok, rfl⟩
      · apply ih
        · exact g.visitNeighbours_nodup memory start _ _ _ hnd
        · intro v hv
          rcases g.visitNeighbours_marked memory start _ _ _ v hv with h | ⟨h, _, _⟩
          · exact hclip v h
          · exact g.inClip_of_mem_neighbours p v h
        · have := g.visitNeighbours_length memory start (g.neighbours p) Q marked
          simp only [List.length_cons] at hlt
          omega

/-- The method `isReachable` throws exactly when its table cannot be allocated, and
otherwise its loop ends, whatever the table held at the start. -/
theorem Grapheme.isReachable_outcome (g : Grapheme) (memory : Int → Int → Bool)
    (start finish : Point) :
    (g.tableAllocates = false ∧ g.isReachable memory start finish = Run.threw) ∨
      (g.tableAllocates = true ∧
        ∃ value inTable, g.isReachable memory start finish = Run.returned value inTable) := by
  unfold Grapheme.isReachable
  cases ha : g.tableAllocates with
  | false => exact Or.inl ⟨rfl, by simp⟩
  | true =>
    refine Or.inr ⟨rfl, ?_⟩
    simp only [if_true]
    apply g.reachLoop_finishes
    · exact List.nodup_nil
    · intro v hv
      simp at hv
    · unfold Grapheme.traversalBound
      simp only [List.length_cons, List.length_nil]
      omega

/-- Soundness, whatever the table held: when every queued point is joined to the start
by a chain of steps and the loop returns true, so is `finish`. -/
theorem Grapheme.reachLoop_sound (g : Grapheme) (memory : Int → Int → Bool)
    (start finish : Point) :
    ∀ (fuel : Nat) (Q marked : List Point) (ok inTable : Bool),
      (∀ q ∈ Q, Relation.ReflTransGen (g.Edge start) start q) →
      g.reachLoop memory start finish fuel Q marked ok = Run.returned true inTable →
      Relation.ReflTransGen (g.Edge start) start finish := by
  intro fuel
  induction fuel with
  | zero =>
    intro Q marked ok inTable _ h
    simp [Grapheme.reachLoop] at h
  | succ fuel ih =>
    intro Q marked ok inTable hQ h
    cases Q with
    | nil => simp [Grapheme.reachLoop] at h
    | cons p Q =>
      simp only [Grapheme.reachLoop] at h
      split_ifs at h with hp
      · rw [← hp]
        exact hQ p (List.mem_cons_self _ _)
      · apply ih _ _ _ _ _ h
        intro q hq
        rcases g.visitNeighbours_queued memory start _ _ _ q hq with h1 | ⟨h1, h2⟩
        · exact hQ q (List.mem_cons_of_mem _ h1)
        · exact Relation.ReflTransGen.tail (hQ p (List.mem_cons_self _ _)) ⟨h1, h2⟩

/-- The method `isReachable` returns true only when a chain of steps leads from `start` to
`finish`, whatever the table held at the start. -/
theorem Grapheme.isReachable_sound (g : Grapheme) (memory : Int → Int → Bool)
    (start finish : Point) (inTable : Bool)
    (h : g.isReachable memory start finish = Run.returned true inTable) :
    Relation.ReflTransGen (g.Edge start) start finish := by
  unfold Grapheme.isReachable at h
  split_ifs at h with ha
  apply g.reachLoop_sound memory start finish _ _ _ _ _ _ h
  intro q hq
  rw [List.mem_singleton] at hq
  rw [hq]

/-- A fenced start is confined: a chain of steps from it stays above the row
`bottom - 2`. -/
theorem Grapheme.confined_of_fenced (g : Grapheme) (start : Point) (hf : g.Fenced start) :
    g.Confined start := by
  intro q hq
  induction hq with
  | refl => exact hf.1
  | @tail p n _ hstep ih =>
    obtain ⟨h1, h2, h3, _⟩ := g.neighbours_above p n ih hstep.1
    by_contra hcon
    have hy : n.y = g.bottom - 2 := by omega
    have e : Point.mk n.x (g.bottom - 2) = n := by
      cases n with
      | mk nx ny =>
        simp only at hy
        rw [← hy]
    have := hf.2 n.x h2 h3
    rw [e, hstep.2] at this
    exact absurd this (by decide)

/-- From a confined start every access of the loop stays inside the table. -/
theorem Grapheme.reachLoop_inTable (g : Grapheme) (memory : Int → Int → Bool)
    (start finish : Point) (hf : g.Confined start) :
    ∀ (fuel : Nat) (Q marked : List Point) (value inTable : Bool),
      (∀ q ∈ Q, Relation.ReflTransGen (g.Edge start) start q) →
      g.reachLoop memory start finish fuel Q marked true = Run.returned value inTable →
      inTable = true := by
  intro fuel
  induction fuel with
  | zero =>
    intro Q marked value inTable _ h
    simp [Grapheme.reachLoop] at h
  | succ fuel ih =>
    intro Q marked value inTable hQ h
    cases Q with
    | nil =>
      simp only [Grapheme.reachLoop, Run.returned.injEq] at h
      exact h.2.symm
    | cons p Q =>
      simp only [Grapheme.reachLoop] at h
      split_ifs at h with hp
      · simp only [Run.returned.injEq] at h
        exact h.2.symm
      · have hpy := hf p (hQ p (List.mem_cons_self _ _))
        rw [g.windowInTable_above p hpy, Bool.and_true] at h
        apply ih _ _ _ _ _ h
        intro q hq
        rcases g.visitNeighbours_queued memory start _ _ _ q hq with h1 | ⟨h1, h2⟩
        · exact hQ q (List.mem_cons_of_mem _ h1)
        · exact Relation.ReflTransGen.tail (hQ p (List.mem_cons_self _ _)) ⟨h1, h2⟩

/-- Completeness on a clean table from a confined start: while every point that is the
start or marked is still queued or was taken from the queue with all its similar
neighbours marked, the loop cannot miss a point that a chain of steps joins to the
start. -/
theorem Grapheme.reachLoop_complete (g : Grapheme) (memory : Int → Int → Bool)
    (start finish : Point) (hclean : g.CleanTable memory) (hf : g.Confined start) :
    ∀ (fuel : Nat) (Q marked : List Point) (ok inTable : Bool),
      (∀ q ∈ Q, Relation.ReflTransGen (g.Edge start) start q) →
      (∀ p, p = start ∨ p ∈ marked →
        p ∈ Q ∨ (p ≠ finish ∧ ∀ n, g.Edge start p n → n ∈ marked)) →
      Relation.ReflTransGen (g.Edge start) start finish →
      g.reachLoop memory start finish fuel Q marked ok ≠ Run.returned false inTable := by
  intro fuel
  induction fuel with
  | zero =>
    intro Q marked ok inTable _ _ _
    simp [Grapheme.reachLoop]
  | succ fuel ih =>
    intro Q marked ok inTable hQ hinv hpath
    cases Q with
    | nil =>
      exfalso
      have hclosed : ∀ q, Relation.ReflTransGen (g.Edge start) start q →
          q = start ∨ q ∈ marked := by
        intro q hq
        induction hq with
        | refl => exact Or.inl rfl
        | tail _ hstep ihq =>
          rcases hinv _ ihq with h | ⟨_, h⟩
          · simp at h
          · exact Or.inr (h _ hstep)
      rcases hinv finish (hclosed finish hpath) with h | ⟨h, _⟩
      · simp at h
      · exact h rfl
    | cons p Q =>
      simp only [Grapheme.reachLoop]
      split_ifs with hp
      · simp
      · have hpy := hf p (hQ p (List.mem_cons_self _ _))
        apply ih _ _ _ _ _ _ hpath
        · intro q hq
          rcases g.visitNeighbours_queued memory start _ _ _ q hq with h1 | ⟨h1, h2⟩
          · exact hQ q (List.mem_cons_of_mem _ h1)
          · exact Relation.ReflTransGen.tail (hQ p (List.mem_cons_self _ _)) ⟨h1, h2⟩
        · intro q hq
          have hmono := g.visitNeighbours_mono memory start (g.neighbours p) Q marked
          by_cases hold : q = start ∨ q ∈ marked
          · rcases hinv q hold with h | ⟨h1, h2⟩
            · rcases List.mem_cons.1 h with rfl | h'
              · right
                refine ⟨hp, ?_⟩
                intro n hn
                exact g.visitNeighbours_covers memory start _ _ _ n hn.1 hn.2
                  (hclean _ _ (g.neighbours_above q n hpy hn.1).2.2.2)
              · exact Or.inl (hmono.1 q h')
            · exact Or.inr ⟨h1, fun n hn => hmono.2 n (h2 n hn)⟩
          · rcases hq with h | h
            · exact absurd (Or.inl h) hold
            · rcases g.visitNeighbours_marked memory start _ _ _ q h with h' | ⟨_, _, h'⟩
              · exact absurd (Or.inr h') hold
              · exact Or.inl h'

/-- On a table that can be allocated and reads false, from a confined start, the method
`isReachable` stays inside the table, returns true when a chain of steps leads from
`start` to `finish`, and returns false otherwise. -/
theorem Grapheme.isReachable_in_table (g : Grapheme) (memory : Int → Int → Bool)
    (start finish : Point) (halloc : g.tableAllocates = true)
    (hclean : g.CleanTable memory) (hf : g.Confined start) :
    (Relation.ReflTransGen (g.Edge start) start finish →
        g.isReachable memory start finish = Run.returned true true) ∧
      (¬ Relation.ReflTransGen (g.Edge start) start finish →
        g.isReachable memory start finish = Run.returned false true) := by
  have hQ : ∀ q ∈ [start], Relation.ReflTransGen (g.Edge start) start q := by
    intro q hq
    rw [List.mem_singleton] at hq
    rw [hq]
  rcases g.isReachable_outcome memory start finish with ⟨h1, _⟩ | ⟨_, value, inTable, hr⟩
  · rw [halloc] at h1
    exact absurd h1 (by decide)
  · have hloop : g.reachLoop memory start finish g.traversalBound [start] [] true =
        Run.returned value inTable := by
      have := hr
      unfold Grapheme.isReachable at this
      rw [if_pos halloc] at this
      exact this
    have hin : inTable = true :=
      g.reachLoop_inTable memory start finish hf _ _ _ _ _ hQ hloop
    subst hin
    constructor
    · intro hpath
      cases value with
      | true => exact hr
      | false =>
        exfalso
        refine g.reachLoop_complete memory start finish hclean hf _ _ _ _ _ hQ ?_ hpath
          hloop
        intro p hp
        rcases hp with rfl | hp
        · exact Or.inl (List.mem_singleton_self _)
        · simp at hp
    · intro hno
      cases value with
      | false => exact hr
      | true => exact absurd (g.isReachable_sound memory start finish _ hr) hno

/-! ## The traversal of `findContiguousShape` -/

/-- The loop of `findContiguousShape` ends within the bound, whatever the table held at
the start, for the same reason as the loop of `isReachable`. -/
theorem Grapheme.takenFrom_isSome (g : Grapheme) (memory : Int → Int → Bool)
    (start : Point) :
    ∀ (fuel : Nat) (Q marked : List Point), marked.Nodup →
      (∀ v ∈ marked, g.InClip v) →
      Q.length + (g.right - g.left).toNat * (g.bottom + 1 - g.top).toNat
        < fuel + marked.length →
      ∃ ps, g.takenFrom memory start fuel Q marked = some ps := by
  intro fuel
  induction fuel with
  | zero =>
    intro Q marked hnd hclip hlt
    have := g.length_le_of_inClip marked hnd hclip
    omega
  | succ fuel ih =>
    intro Q marked hnd hclip hlt
    cases Q with
    | nil => exact ⟨[], rfl⟩
    | cons p Q =>
      obtain ⟨ps, hps⟩ := ih
        (g.visitNeighbours memory start (g.neighbours p) Q marked).1
        (g.visitNeighbours memory start (g.neighbours p) Q marked).2
        (g.visitNeighbours_nodup memory start _ _ _ hnd)
        (by
          intro v hv
          rcases g.visitNeighbours_marked memory start _ _ _ v hv with h | ⟨h, _, _⟩
          · exact hclip v h
          · exact g.inClip_of_mem_neighbours p v h)
        (by
          have := g.visitNeighbours_length memory start (g.neighbours p) Q marked
          simp only [List.length_cons] at hlt
          omega)
      exact ⟨p :: ps, by simp only [Grapheme.takenFrom, hps]⟩

/-- The extent that the loop of `findContiguousShape` returns is the start extent extended
by every point taken from the queue, in order, and its accesses stayed inside the
table when the window of each of these points lies in the table. -/
theorem Grapheme.shapeLoop_eq_foldl (g : Grapheme) (memory : Int → Int → Bool)
    (start : Point) :
    ∀ (fuel : Nat) (Q marked : List Point) (extent : Box) (ok : Bool) (ps : List Point),
      g.takenFrom memory start fuel Q marked = some ps →
      g.shapeLoop memory start fuel Q marked extent ok =
        Run.returned (ps.foldl Box.extend extent) (ok && ps.all g.windowInTable) := by
  intro fuel
  induction fuel with
  | zero =>
    intro Q marked extent ok ps h
    simp [Grapheme.takenFrom] at h
  | succ fuel ih =>
    intro Q marked extent ok ps h
    cases Q with
    | nil =>
      simp only [Grapheme.takenFrom, Option.some.injEq] at h
      subst h
      simp [Grapheme.shapeLoop]
    | cons p Q =>
      simp only [Grapheme.takenFrom] at h
      cases hr : g.takenFrom memory start fuel
          (g.visitNeighbours memory start (g.neighbours p) Q marked).1
          (g.visitNeighbours memory start (g.neighbours p) Q marked).2 with
      | none => rw [hr] at h; simp at h
      | some qs =>
        rw [hr] at h
        simp only [Option.some.injEq] at h
        subst h
        simp only [Grapheme.shapeLoop, List.foldl_cons, List.all_cons]
        rw [ih _ _ _ _ _ hr, Bool.and_assoc]

/-- Every point taken from the queue is joined to the start by a chain of steps, whatever
the table held at the start. -/
theorem Grapheme.takenFrom_sound (g : Grapheme) (memory : Int → Int → Bool)
    (start : Point) :
    ∀ (fuel : Nat) (Q marked : List Point) (ps : List Point),
      (∀ q ∈ Q, Relation.ReflTransGen (g.Edge start) start q) →
      g.takenFrom memory start fuel Q marked = some ps →
      ∀ p ∈ ps, Relation.ReflTransGen (g.Edge start) start p := by
  intro fuel
  induction fuel with
  | zero =>
    intro Q marked ps _ h
    simp [Grapheme.takenFrom] at h
  | succ fuel ih =>
    intro Q marked ps hQ h
    cases Q with
    | nil =>
      simp only [Grapheme.takenFrom, Option.some.injEq] at h
      subst h
      intro p hp
      simp at hp
    | cons p Q =>
      simp only [Grapheme.takenFrom] at h
      cases hr : g.takenFrom memory start fuel
          (g.visitNeighbours memory start (g.neighbours p) Q marked).1
          (g.visitNeighbours memory start (g.neighbours p) Q marked).2 with
      | none => rw [hr] at h; simp at h
      | some qs =>
        rw [hr] at h
        simp only [Option.some.injEq] at h
        subst h
        have hrest := ih _ _ qs (by
          intro q hq
          rcases g.visitNeighbours_queued memory start _ _ _ q hq with h1 | ⟨h1, h2⟩
          · exact hQ q (List.mem_cons_of_mem _ h1)
          · exact Relation.ReflTransGen.tail (hQ p (List.mem_cons_self _ _)) ⟨h1, h2⟩) hr
        intro x hx
        rcases List.mem_cons.1 hx with rfl | hx'
        · exact hQ x (List.mem_cons_self _ _)
        · exact hrest x hx'

/-- On a clean table from a confined start, every point joined to the start by a chain of
steps is taken from the queue, now or earlier (`done`), as long as every point that is
the start or marked is still queued or was taken with all its similar neighbours
marked. -/
theorem Grapheme.takenFrom_complete (g : Grapheme) (memory : Int → Int → Bool)
    (start : Point) (hclean : g.CleanTable memory) (hf : g.Confined start) :
    ∀ (fuel : Nat) (Q marked : List Point) (done : Point → Prop) (ps : List Point),
      (∀ q ∈ Q, Relation.ReflTransGen (g.Edge start) start q) →
      (∀ p, p = start ∨ p ∈ marked →
        p ∈ Q ∨ (done p ∧ ∀ n, g.Edge start p n → n ∈ marked)) →
      g.takenFrom memory start fuel Q marked = some ps →
      ∀ q, Relation.ReflTransGen (g.Edge start) start q → done q ∨ q ∈ ps := by
  intro fuel
  induction fuel with
  | zero =>
    intro Q marked done ps _ _ h
    simp [Grapheme.takenFrom] at h
  | succ fuel ih =>
    intro Q marked done ps hQ hinv h
    cases Q with
    | nil =>
      have hclosed : ∀ q, Relation.ReflTransGen (g.Edge start) start q →
          q = start ∨ q ∈ marked := by
        intro q hq
        induction hq with
        | refl => exact Or.inl rfl
        | tail _ hstep ihq =>
          rcases hinv _ ihq with h1 | ⟨_, h1⟩
          · simp at h1
          · exact Or.inr (h1 _ hstep)
      intro q hq
      rcases hinv q (hclosed q hq) with h1 | ⟨h1, _⟩
      · simp at h1
      · exact Or.inl h1
    | cons p Q =>
      simp only [Grapheme.takenFrom] at h
      cases hr : g.takenFrom memory start fuel
          (g.visitNeighbours memory start (g.neighbours p) Q marked).1
          (g.visitNeighbours memory start (g.neighbours p) Q marked).2 with
      | none => rw [hr] at h; simp at h
      | some qs =>
        rw [hr] at h
        simp only [Option.some.injEq] at h
        subst h
        have hpy := hf p (hQ p (List.mem_cons_self _ _))
        have hmono := g.visitNeighbours_mono memory start (g.neighbours p) Q marked
        have hrest := ih _ _ (fun x => done x ∨ x = p) qs (by
          intro q hq
          rcases g.visitNeighbours_queued memory start _ _ _ q hq with h1 | ⟨h1, h2⟩
          · exact hQ q (List.mem_cons_of_mem _ h1)
          · exact Relation.ReflTransGen.tail (hQ p (List.mem_cons_self _ _)) ⟨h1, h2⟩) (by
          intro x hx
          by_cases hold : x = start ∨ x ∈ marked
          · rcases hinv x hold with h1 | ⟨h1, h2⟩
            · rcases List.mem_cons.1 h1 with rfl | h1'
              · right
                exact ⟨Or.inr rfl, fun n hn =>
                  g.visitNeighbours_covers memory start _ _ _ n hn.1 hn.2
                    (hclean _ _ (g.neighbours_above x n hpy hn.1).2.2.2)⟩
              · exact Or.inl (hmono.1 x h1')
            · exact Or.inr ⟨Or.inl h1, fun n hn => hmono.2 n (h2 n hn)⟩
          · rcases hx with h1 | h1
            · exact absurd (Or.inl h1) hold
            · rcases g.visitNeighbours_marked memory start _ _ _ x h1 with h2 | ⟨_, _, h2⟩
              · exact absurd (Or.inr h2) hold
              · exact Or.inl h2) hr
        intro q hq
        rcases hrest q hq with (h1 | h1) | h1
        · exact Or.inl h1
        · exact Or.inr (by rw [h1]; exact List.mem_cons_self _ _)
        · exact Or.inr (List.mem_cons_of_mem _ h1)

theorem Grapheme.shapeVisits_isSome (g : Grapheme) (memory : Int → Int → Bool)
    (start : Point) : ∃ ps, g.shapeVisits memory start = some ps := by
  unfold Grapheme.shapeVisits Grapheme.traversalBound
  apply g.takenFrom_isSome
  · exact List.nodup_nil
  · intro v hv
    simp at hv
  · simp only [List.length_cons, List.length_nil]
    omega

/-- The method `findContiguousShape` throws exactly when its table cannot be allocated,
and otherwise its loop ends, whatever the table held at the start. -/
theorem Grapheme.findContiguousShape_outcome (g : Grapheme) (memory : Int → Int → Bool)
    (start : Point) :
    (g.tableAllocates = false ∧ g.findContiguousShape memory start = Run.threw) ∨
      (g.tableAllocates = true ∧
        ∃ box inTable, g.findContiguousShape memory start = Run.returned box inTable) := by
  unfold Grapheme.findContiguousShape
  cases ha : g.tableAllocates with
  | false => exact Or.inl ⟨rfl, by simp⟩
  | true =>
    refine Or.inr ⟨rfl, ?_⟩
    simp only [if_true]
    obtain ⟨ps, hps⟩ := g.shapeVisits_isSome memory start
    exact ⟨_, _, g.shapeLoop_eq_foldl memory start _ _ _ _ _ ps hps⟩

/-- On a clean table from a confined start, `findContiguousShape` visits a point exactly
when a chain of steps joins it to the start. -/
theorem Grapheme.mem_shapeVisits_iff (g : Grapheme) (memory : Int → Int → Bool)
    (start : Point) (hclean : g.CleanTable memory) (hf : g.Confined start)
    (ps : List Point) (h : g.shapeVisits memory start = some ps) (q : Point) :
    q ∈ ps ↔ Relation.ReflTransGen (g.Edge start) start q := by
  unfold Grapheme.shapeVisits at h
  have hQ : ∀ q ∈ [start], Relation.ReflTransGen (g.Edge start) start q := by
    intro q hq
    rw [List.mem_singleton] at hq
    rw [hq]
  constructor
  · intro hq
    exact g.takenFrom_sound memory start _ _ _ ps hQ h q hq
  · intro hq
    have := g.takenFrom_complete memory start hclean hf _ _ _ (fun _ => False) ps hQ (by
      intro p hp
      rcases hp with rfl | hp
      · exact Or.inl (List.mem_singleton_self _)
      · simp at hp) h q hq
    rcases this with h1 | h1
    · exact absurd h1 id
    · exact h1

/-- From a confined start, on a table that can be allocated, `findContiguousShape` stays
inside the table and returns the start extent extended by the points it visits. -/
theorem Grapheme.findContiguousShape_eq_foldl (g : Grapheme) (memory : Int → Int → Bool)
    (start : Point) (halloc : g.tableAllocates = true) (hf : g.Confined start)
    (ps : List Point) (h : g.shapeVisits memory start = some ps) :
    g.findContiguousShape memory start =
      Run.returned (ps.foldl Box.extend
        { low := Point.mk start.x start.y, high := Point.mk start.x start.y }) true := by
  unfold Grapheme.findContiguousShape
  rw [if_pos halloc, g.shapeLoop_eq_foldl memory start _ _ _ _ _ ps h]
  have hall : ps.all g.windowInTable = true := by
    rw [List.all_eq_true]
    intro p hp
    apply g.windowInTable_above
    apply hf
    refine g.takenFrom_sound memory start _ _ _ ps ?_ h p hp
    intro q hq
    rw [List.mem_singleton] at hq
    rw [hq]
  rw [hall]
  rfl

/-! ## Extents -/

theorem Box.extend_bounds (b : Box) (p : Point) :
    (b.extend p).low.x ≤ b.low.x ∧ b.high.x ≤ (b.extend p).high.x ∧
      (b.extend p).low.y ≤ b.low.y ∧ b.high.y ≤ (b.extend p).high.y ∧
      (b.extend p).low.x ≤ p.x ∧ p.x ≤ (b.extend p).high.x ∧
      (b.extend p).low.y ≤ p.y ∧ p.y ≤ (b.extend p).high.y := by
  simp only [Box.extend]
  refine ⟨?_, ?_, ?_, ?_, ?_, ?_, ?_, ?_⟩ <;> split_ifs <;> omega

theorem Box.extend_attained (b : Box) (p : Point) :
    ((b.extend p).low.x = b.low.x ∨ (b.extend p).low.x = p.x) ∧
      ((b.extend p).high.x = b.high.x ∨ (b.extend p).high.x = p.x) ∧
      ((b.extend p).low.y = b.low.y ∨ (b.extend p).low.y = p.y) ∧
      ((b.extend p).high.y = b.high.y ∨ (b.extend p).high.y = p.y) := by
  simp only [Box.extend]
  refine ⟨?_, ?_, ?_, ?_⟩ <;> split_ifs <;> simp

/-- The extent after a list of points contains the extent before and every point of the
list. -/
theorem Box.foldl_extend_bounds (ps : List Point) :
    ∀ (b : Box),
      ((ps.foldl Box.extend b).low.x ≤ b.low.x ∧ b.high.x ≤ (ps.foldl Box.extend b).high.x ∧
        (ps.foldl Box.extend b).low.y ≤ b.low.y ∧
        b.high.y ≤ (ps.foldl Box.extend b).high.y) ∧
      ∀ p ∈ ps, (ps.foldl Box.extend b).low.x ≤ p.x ∧ p.x ≤ (ps.foldl Box.extend b).high.x ∧
        (ps.foldl Box.extend b).low.y ≤ p.y ∧ p.y ≤ (ps.foldl Box.extend b).high.y := by
  induction ps with
  | nil =>
    intro b
    simp
  | cons q qs ih =>
    intro b
    simp only [List.foldl_cons]
    obtain ⟨⟨i1, i2, i3, i4⟩, i5⟩ := ih (b.extend q)
    obtain ⟨e1, e2, e3, e4, e5, e6, e7, e8⟩ := b.extend_bounds q
    refine ⟨⟨by omega, by omega, by omega, by omega⟩, ?_⟩
    intro p hp
    rcases List.mem_cons.1 hp with rfl | hp'
    · exact ⟨by omega, by omega, by omega, by omega⟩
    · exact i5 p hp'

/-- Every side of the extent after a list of points is a side of the extent before or a
coordinate of a point of the list. -/
theorem Box.foldl_extend_attained (ps : List Point) :
    ∀ (b : Box),
      ((ps.foldl Box.extend b).low.x = b.low.x ∨
          ∃ p ∈ ps, p.x = (ps.foldl Box.extend b).low.x) ∧
        ((ps.foldl Box.extend b).high.x = b.high.x ∨
          ∃ p ∈ ps, p.x = (ps.foldl Box.extend b).high.x) ∧
        ((ps.foldl Box.extend b).low.y = b.low.y ∨
          ∃ p ∈ ps, p.y = (ps.foldl Box.extend b).low.y) ∧
        ((ps.foldl Box.extend b).high.y = b.high.y ∨
          ∃ p ∈ ps, p.y = (ps.foldl Box.extend b).high.y) := by
  induction ps with
  | nil =>
    intro b
    simp
  | cons q qs ih =>
    intro b
    simp only [List.foldl_cons]
    obtain ⟨i1, i2, i3, i4⟩ := ih (b.extend q)
    obtain ⟨a1, a2, a3, a4⟩ := b.extend_attained q
    refine ⟨?_, ?_, ?_, ?_⟩
    · rcases i1 with h | ⟨p, hp, h⟩
      · rcases a1 with h' | h'
        · exact Or.inl (h.trans h')
        · exact Or.inr ⟨q, List.mem_cons_self _ _, (h.trans h').symm⟩
      · exact Or.inr ⟨p, List.mem_cons_of_mem _ hp, h⟩
    · rcases i2 with h | ⟨p, hp, h⟩
      · rcases a2 with h' | h'
        · exact Or.inl (h.trans h')
        · exact Or.inr ⟨q, List.mem_cons_self _ _, (h.trans h').symm⟩
      · exact Or.inr ⟨p, List.mem_cons_of_mem _ hp, h⟩
    · rcases i3 with h | ⟨p, hp, h⟩
      · rcases a3 with h' | h'
        · exact Or.inl (h.trans h')
        · exact Or.inr ⟨q, List.mem_cons_self _ _, (h.trans h').symm⟩
      · exact Or.inr ⟨p, List.mem_cons_of_mem _ hp, h⟩
    · rcases i4 with h | ⟨p, hp, h⟩
      · rcases a4 with h' | h'
        · exact Or.inl (h.trans h')
        · exact Or.inr ⟨q, List.mem_cons_self _ _, (h.trans h').symm⟩
      · exact Or.inr ⟨p, List.mem_cons_of_mem _ hp, h⟩

/-! ## Concrete facts used by the witnesses -/

theorem cleanTable_cleanMemory (g : Grapheme) : g.CleanTable cleanMemory :=
  fun _ _ _ => rfl

theorem cleanTable_memoryPast24 : darkColumn.CleanTable memoryPast24 := by
  intro i j h
  simp only [Grapheme.inTable, Bool.and_eq_true, decide_eq_true_eq] at h
  have hb : darkColumn.bottom - darkColumn.top = 24 := by decide
  simp only [memoryPast24, decide_eq_false_iff_not]
  omega

theorem darkBand_fenced_origin : darkBand.Fenced (Point.mk 0 0) := by
  refine ⟨by decide, ?_⟩
  intro x h1 h2
  have e1 : darkBand.left = 0 := rfl
  have e2 : darkBand.right = 3 := rfl
  rw [e1] at h1
  rw [e2] at h2
  have hx : x = 0 ∨ x = 1 ∨ x = 2 := by omega
  rcases hx with rfl | rfl | rfl <;> decide

theorem darkBand_fenced_corner : darkBand.Fenced (Point.mk 2 1) := by
  refine ⟨by decide, ?_⟩
  intro x h1 h2
  have e1 : darkBand.left = 0 := rfl
  have e2 : darkBand.right = 3 := rfl
  rw [e1] at h1
  rw [e2] at h2
  have hx : x = 0 ∨ x = 1 ∨ x = 2 := by omega
  rcases hx with rfl | rfl | rfl <;> decide

theorem darkBand_confined_origin : darkBand.Confined (Point.mk 0 0) :=
  darkBand.confined_of_fenced _ darkBand_fenced_origin

theorem darkBand_confined_corner : darkBand.Confined (Point.mk 2 1) :=
  darkBand.confined_of_fenced _ darkBand_fenced_corner

theorem Grapheme.isReachable_threw (g : Grapheme) (memory : Int → Int → Bool)
    (start finish : Point) (h : g.tableAllocates = false) :
    g.isReachable memory start finish = Run.threw := by
  unfold Grapheme.isReachable
  simp [h]

theorem Grapheme.findContiguousShape_threw (g : Grapheme) (memory : Int → Int → Bool)
    (start : Point) (h : g.tableAllocates = false) :
    g.findContiguousShape memory start = Run.threw := by
  unfold Grapheme.findContiguousShape
  simp [h]

/-! ## Claims on `isReachable` -/

/-- C13 as stated fails. In the rectangle `(3, 3, 2, 2)` that `pareDown` leaves of a light
image the call `isReachable((3, 3), (3, 3))` must return true, since `end = start`, yet
it throws at the allocation of `visited`, whatever the heap holds. In the dark column
with the region `(0, 0, 1, 24)` a chain of steps leads from `(0, 0)` to `(0, 24)`, yet
with a table that reads false in every cell and a byte that reads true just past the
column the call returns false, after an access outside the table. -/
theorem isReachable_throws_or_leaves_table :
    emptiedSquare.rect = (3, 3, 2, 2) ∧
      (∀ memory, emptiedSquare.isReachable memory (Point.mk 3 3) (Point.mk 3 3) =
        Run.threw) ∧
      darkColumn.CleanTable memoryPast24 ∧
      Relation.ReflTransGen (darkColumn.Edge (Point.mk 0 0)) (Point.mk 0 0)
        (Point.mk 0 24) ∧
      darkColumn.isReachable memoryPast24 (Point.mk 0 0) (Point.mk 0 24) =
        Run.returned false false := by
  refine ⟨by decide, fun memory => Grapheme.isReachable_threw _ _ _ _ (by decide),
    cleanTable_memoryPast24, ?_, by decide⟩
  have h22 : darkColumn.isReachable cleanMemory (Point.mk 0 0) (Point.mk 0 22) =
      Run.returned true true := by decide
  refine Relation.ReflTransGen.tail (darkColumn.isReachable_sound _ _ _ _ h22) ?_
  unfold Grapheme.Edge
  decide

/-- C13, amended. With every cell of the table `visited` initially false, for every
region whose table can be allocated and every start point that is confined (`start`
and every point that a chain as below joins to it lie above the row `bottom - 2`, so
that the traversal stays inside the table): `isReachable(start, end)` returns true
exactly when `end = start` or a chain `start = p0, p1, ..., pn = end` exists in which
every `p(i+1)` lies in the neighbour window the code computes around `p(i)` and has a
colour similar to that of the start pixel; otherwise it returns false. -/
theorem isReachable_iff_chain (g : Grapheme) (memory : Int → Int → Bool)
    (start finish : Point) (halloc : g.tableAllocates = true)
    (hclean : g.CleanTable memory) (hconf : g.Confined start) :
    (g.isReachable memory start finish = Run.returned true true ↔
        Relation.ReflTransGen
          (fun p n => n ∈ g.neighbours p ∧
            isSimilar (g.image.pixel start.x start.y) (g.image.pixel n.x n.y) = true)
          start finish) ∧
      (g.isReachable memory start finish = Run.returned false true ↔
        ¬ Relation.ReflTransGen
          (fun p n => n ∈ g.neighbours p ∧
            isSimilar (g.image.pixel start.x start.y) (g.image.pixel n.x n.y) = true)
          start finish) := by
  obtain ⟨h1, h2⟩ := g.isReachable_in_table memory start finish halloc hclean hconf
  constructor
  · exact ⟨g.isReachable_sound memory start finish true, h1⟩
  · constructor
    · intro hr hpath
      rw [h1 hpath] at hr
      exact absurd hr (by decide)
    · exact h2

/-- Witness for C13, amended: the points `(0, 0)` and `(2, 1)` of `darkBand` on a clean
table. -/
theorem isReachable_iff_chain_witness :
    (darkBand.isReachable cleanMemory (Point.mk 0 0) (Point.mk 2 1) =
          Run.returned true true ↔
        Relation.ReflTransGen
          (fun p n => n ∈ darkBand.neighbours p ∧
            isSimilar (darkBand.image.pixel (Point.mk 0 0).x (Point.mk 0 0).y)
              (darkBand.image.pixel n.x n.y) = true)
          (Point.mk 0 0) (Point.mk 2 1)) ∧
      (darkBand.isReachable cleanMemory (Point.mk 0 0) (Point.mk 2 1) =
          Run.returned false true ↔
        ¬ Relation.ReflTransGen
          (fun p n => n ∈ darkBand.neighbours p ∧
            isSimilar (darkBand.image.pixel (Point.mk 0 0).x (Point.mk 0 0).y)
              (darkBand.image.pixel n.x n.y) = true)
          (Point.mk 0 0) (Point.mk 2 1)) :=
  isReachable_iff_chain darkBand cleanMemory (Point.mk 0 0) (Point.mk 2 1) (by decide)
    (cleanTable_cleanMemory darkBand) darkBand_confined_origin

theorem Grapheme.edge_of_linked (g : Grapheme) (a b p q : Point)
    (h : g.Linked a b p q) : g.Edge a p q :=
  ⟨g.mem_neighbours_of_adjacent p q h.1.1 h.1.2.1 h.1.2.2.1 h.1.2.2.2 h.2.2.1, h.2.2.2.1⟩

theorem Grapheme.edge_of_linked_reverse (g : Grapheme) (a b p q : Point)
    (h : g.Linked a b p q) : g.Edge b q p :=
  ⟨g.mem_neighbours_of_adjacent q p (by have := h.1; omega) (by have := h.1; omega)
    (by have := h.1; omega) (by have := h.1; omega) h.2.1.1, h.2.1.2.2⟩

theorem Grapheme.reverse_linked_chain (g : Grapheme) (a b : Point) :
    ∀ p q, Relation.ReflTransGen (g.Linked a b) p q →
      Relation.ReflTransGen (g.Edge b) q p := by
  intro p q h
  induction h with
  | refl => exact Relation.ReflTransGen.refl
  | tail _ hstep ih =>
    exact Relation.ReflTransGen.head (g.edge_of_linked_reverse a b _ _ hstep) ih

/-- C4 as stated fails. In `driftRow` the points `(0, 0)` and `(2, 0)` are foreground,
lie inside the region and are joined by the adjacent pixels `(0, 0)`, `(1, 0)`,
`(2, 0)` inside it; on a clean table `isReachable((0, 0), (2, 0))` is true, because
levels 0 and 18 are both similar to the seed level 9, but `isReachable((2, 0), (0, 0))`
is false, because level 0 is not similar to the seed level 18. The same holds in
`driftBand`, where the region has three rows and both runs stay inside the table. -/
theorem isReachable_not_symmetric :
    isForeground (driftRow.image.pixel 0 0) = true ∧
      isForeground (driftRow.image.pixel 2 0) = true ∧
      driftRow.AdjacentInside (Point.mk 0 0) (Point.mk 1 0) ∧
      driftRow.AdjacentInside (Point.mk 1 0) (Point.mk 2 0) ∧
      driftRow.isReachable cleanMemory (Point.mk 0 0) (Point.mk 2 0) =
        Run.returned true false ∧
      driftRow.isReachable cleanMemory (Point.mk 2 0) (Point.mk 0 0) =
        Run.returned false false ∧
      isForeground (driftBand.image.pixel 0 0) = true ∧
      isForeground (driftBand.image.pixel 2 0) = true ∧
      driftBand.AdjacentInside (Point.mk 0 0) (Point.mk 1 0) ∧
      driftBand.AdjacentInside (Point.mk 1 0) (Point.mk 2 0) ∧
      driftBand.isReachable cleanMemory (Point.mk 0 0) (Point.mk 2 0) =
        Run.returned true true ∧
      driftBand.isReachable cleanMemory (Point.mk 2 0) (Point.mk 0 0) =
        Run.returned false true := by
  unfold Grapheme.AdjacentInside Grapheme.Inside
  decide

/-- C4, amended. With every cell of the table `visited` initially false in both calls, in
a region whose table can be allocated, let `a` and `b` be confined (every point that
the steps of the traversal from `a` join to `a`, and every point that the steps of the
traversal from `b` join to `b`, lies above the row `bottom - 2`, so that both
traversals stay inside the table), and let `a` and `b` be joined by a chain of
8-adjacent pixels, each similar in colour both to `a` and to `b`. Then
`isReachable(a, b)` and `isReachable(b, a)` are both true; so on such pairs
reachability is symmetric. -/
theorem isReachable_symmetric_of_linked (g : Grapheme) (memoryA memoryB : Int → Int → Bool)
    (a b : Point) (halloc : g.tableAllocates = true)
    (hcleanA : g.CleanTable memoryA) (hcleanB : g.CleanTable memoryB)
    (hconfA : g.Confined a) (hconfB : g.Confined b)
    (h : Relation.ReflTransGen (g.Linked a b) a b) :
    g.isReachable memoryA a b = Run.returned true true ∧
      g.isReachable memoryB b a = Run.returned true true :=
  ⟨(g.isReachable_in_table memoryA a b halloc hcleanA hconfA).1
      (h.mono (g.edge_of_linked a b)),
    (g.isReachable_in_table memoryB b a halloc hcleanB hconfB).1
      (g.reverse_linked_chain a b a b h)⟩

/-- Witness for C4, amended: the points `(0, 0)` and `(2, 1)` of `darkBand`, joined
through `(1, 0)`, on clean tables. -/
theorem isReachable_symmetric_of_linked_witness :
    darkBand.isReachable cleanMemory (Point.mk 0 0) (Point.mk 2 1) =
        Run.returned true true ∧
      darkBand.isReachable cleanMemory (Point.mk 2 1) (Point.mk 0 0) =
        Run.returned true true :=
  isReachable_symmetric_of_linked darkBand cleanMemory cleanMemory (Point.mk 0 0)
    (Point.mk 2 1) (by decide) (cleanTable_cleanMemory darkBand)
    (cleanTable_cleanMemory darkBand) darkBand_confined_origin darkBand_confined_corner
    (Relation.ReflTransGen.tail
      (Relation.ReflTransGen.single
        (show darkBand.Linked (Point.mk 0 0) (Point.mk 2 1) (Point.mk 0 0) (Point.mk 1 0) by
          unfold Grapheme.Linked Grapheme.InClip
          decide))
      (show darkBand.Linked (Point.mk 0 0) (Point.mk 2 1) (Point.mk 1 0) (Point.mk 2 1) by
        unfold Grapheme.Linked Grapheme.InClip
        decide))

/-! ## Claims on both traversals -/

set_option maxRecDepth 4000 in
/-- C15 as stated fails. In the rectangle `(3, 3, 2, 2)` that `pareDown` leaves of a light
image the call `findContiguousShape((3, 3))` returns no box: it throws at the
allocation of `visited`, whatever the heap holds. In the dark column with the region
`(0, 0, 1, 24)` each call allocates a table of its own; when both tables read false in
every cell, but the byte just past the column reads true in the one and false in the
other, `findContiguousShape((0, 0))` returns the box from `(0, 0)` to `(0, 23)` while
`isReachable((0, 0), (0, 24))` is true, both after an access outside the table. -/
theorem findContiguousShape_throws_or_leaves_table :
    emptiedSquare.rect = (3, 3, 2, 2) ∧
      (∀ memory, emptiedSquare.findContiguousShape memory (Point.mk 3 3) = Run.threw) ∧
      darkColumn.CleanTable memoryPast24 ∧ darkColumn.CleanTable cleanMemory ∧
      darkColumn.findContiguousShape memoryPast24 (Point.mk 0 0) =
        Run.returned { low := Point.mk 0 0, high := Point.mk 0 23 } false ∧
      darkColumn.isReachable cleanMemory (Point.mk 0 0) (Point.mk 0 24) =
        Run.returned true false := by
  refine ⟨by decide, fun memory => Grapheme.findContiguousShape_threw _ _ _ (by decide),
    cleanTable_memoryPast24, cleanTable_cleanMemory darkColumn, by decide, by decide⟩

/-- C15, amended. With every cell of the table `visited` initially false, for every region
whose table can be allocated and every start point that is confined (`start` and
every point that a chain of steps of the traversal joins to it lie above the row
`bottom - 2`, so that the traversals stay inside the table):
`findContiguousShape(start)` returns a box, and that box is the
tight bounding box of the points it visits, which are exactly the points `q` with
`isReachable(start, q)`: no visited point lies outside the box, every side of the box
is attained by a visited point, the box contains `start`, and `low.x <= high.x` and
`low.y <= high.y`. -/
theorem findContiguousShape_tight_box (g : Grapheme) (memory memoryR : Int → Int → Bool)
    (start : Point) (halloc : g.tableAllocates = true) (hclean : g.CleanTable memory)
    (hcleanR : g.CleanTable memoryR) (hconf : g.Confined start) :
    ∃ box visits, g.findContiguousShape memory start = Run.returned box true ∧
      g.shapeVisits memory start = some visits ∧
      (∀ q, q ∈ visits ↔ g.isReachable memoryR start q = Run.returned true true) ∧
      (∀ q ∈ visits, box.low.x ≤ q.x ∧ q.x ≤ box.high.x ∧
        box.low.y ≤ q.y ∧ q.y ≤ box.high.y) ∧
      (∃ q ∈ visits, q.x = box.low.x) ∧ (∃ q ∈ visits, q.x = box.high.x) ∧
      (∃ q ∈ visits, q.y = box.low.y) ∧ (∃ q ∈ visits, q.y = box.high.y) ∧
      (box.low.x ≤ start.x ∧ start.x ≤ box.high.x ∧
        box.low.y ≤ start.y ∧ start.y ≤ box.high.y) ∧
      box.low.x ≤ box.high.x ∧ box.low.y ≤ box.high.y := by
  obtain ⟨visits, hv⟩ := g.shapeVisits_isSome memory start
  have hstart : start ∈ visits :=
    (g.mem_shapeVisits_iff memory start hclean hconf visits hv start).2
      Relation.ReflTransGen.refl
  obtain ⟨_, hin⟩ := Box.foldl_extend_bounds visits
    { low := Point.mk start.x start.y, high := Point.mk start.x start.y }
  obtain ⟨a1, a2, a3, a4⟩ := Box.foldl_extend_attained visits
    { low := Point.mk start.x start.y, high := Point.mk start.x start.y }
  have hs := hin start hstart
  refine ⟨_, visits, g.findContiguousShape_eq_foldl memory start halloc hconf visits hv,
    hv, ?_, hin, ?_, ?_, ?_, ?_, hs, by omega, by omega⟩
  · intro q
    rw [g.mem_shapeVisits_iff memory start hclean hconf visits hv]
    obtain ⟨h1, _⟩ := g.isReachable_in_table memoryR start q halloc hcleanR hconf
    exact ⟨h1, g.isReachable_sound memoryR start q true⟩
  · rcases a1 with h | h
    · exact ⟨start, hstart, h.symm⟩
    · exact h
  · rcases a2 with h | h
    · exact ⟨start, hstart, h.symm⟩
    · exact h
  · rcases a3 with h | h
    · exact ⟨start, hstart, h.symm⟩
    · exact h
  · rcases a4 with h | h
    · exact ⟨start, hstart, h.symm⟩
    · exact h

/-- Witness for C15, amended: `darkBand` from `(0, 0)` on clean tables. -/
theorem findContiguousShape_tight_box_witness :
    ∃ box visits, darkBand.findContiguousShape cleanMemory (Point.mk 0 0) =
        Run.returned box true ∧
      darkBand.shapeVisits cleanMemory (Point.mk 0 0) = some visits ∧
      (∀ q, q ∈ visits ↔
        darkBand.isReachable cleanMemory (Point.mk 0 0) q = Run.returned true true) ∧
      (∀ q ∈ visits, box.low.x ≤ q.x ∧ q.x ≤ box.high.x ∧
        box.low.y ≤ q.y ∧ q.y ≤ box.high.y) ∧
      (∃ q ∈ visits, q.x = box.low.x) ∧ (∃ q ∈ visits, q.x = box.high.x) ∧
      (∃ q ∈ visits, q.y = box.low.y) ∧ (∃ q ∈ visits, q.y = box.high.y) ∧
      (box.low.x ≤ (Point.mk 0 0).x ∧ (Point.mk 0 0).x ≤ box.high.x ∧
        box.low.y ≤ (Point.mk 0 0).y ∧ (Point.mk 0 0).y ≤ box.high.y) ∧
      box.low.x ≤ box.high.x ∧ box.low.y ≤ box.high.y :=
  findContiguousShape_tight_box darkBand cleanMemory cleanMemory (Point.mk 0 0)
    (by decide) (cleanTable_cleanMemory darkBand) (cleanTable_cleanMemory darkBand)
    darkBand_confined_origin

/-- C14, evaluated at a failing input. In the column `stackedColumn` (rows 0 to 2, region
`(0, 0, 1, 2)`) the start point `(0, 0)` lies inside the region and its window holds
the point `(0, 2)`, two rows below. On a clean heap `(0, 2)` is enqueued while `(0, 0)`
is processed; so `isReachable` finds `(0, 2)` across the dissimilar pixel `(0, 1)` and
`findContiguousShape` returns the box from `(0, 0)` to `(0, 2)`, both after an access
outside the table. -/
theorem enqueued_neighbour_two_rows_below :
    stackedColumn.Inside (Point.mk 0 0) ∧
      Point.mk 0 2 ∈ stackedColumn.neighbours (Point.mk 0 0) ∧
      (stackedColumn.visitNeighbours cleanMemory (Point.mk 0 0)
        (stackedColumn.neighbours (Point.mk 0 0)) [] []).1 = [Point.mk 0 0, Point.mk 0 2] ∧
      stackedColumn.similarToStart (Point.mk 0 0) (Point.mk 0 1) = false ∧
      stackedColumn.isReachable cleanMemory (Point.mk 0 0) (Point.mk 0 2) =
        Run.returned true false ∧
      stackedColumn.findContiguousShape cleanMemory (Point.mk 0 0) =
        Run.returned { low := Point.mk 0 0, high := Point.mk 0 2 } false := by
  unfold Grapheme.Inside
  decide

/-- In every region the window around a point of the row `bottom - 1` reaches the row
`bottom`, whose index `bottom - top` is not below the size `bottom - top` of the table
`visited`. -/
theorem Grapheme.visitedIndices_bottom_row (g : Grapheme) (start : Point)
    (hx1 : g.left ≤ start.x) (hx2 : start.x < g.right) (hy1 : g.top ≤ start.y)
    (hy2 : start.y = g.bottom - 1) :
    (start.x - g.left, g.bottom - g.top) ∈ g.visitedIndices start := by
  unfold Grapheme.visitedIndices
  rw [List.mem_map]
  refine ⟨Point.mk start.x g.bottom, ?_, rfl⟩
  rw [Grapheme.mem_neighbours]
  refine ⟨⟨?_, ?_⟩, ?_, ?_⟩ <;> split_ifs <;> simp only <;> omega

/-- C19, evaluated at a failing input. The region of `darkPatch` has `left < right` and
`top < bottom` and the start point `(0, 0)` lies inside it, yet while `(0, 0)` is
processed the table `visited` is read at the index pair `(0, 1)`, which is outside the
table since the second index must stay below `bottom - top = 1`; on a clean heap the
point `(0, 1)` is then marked there, and both traversals return after accesses outside
the table. -/
theorem visited_index_outside_table :
    darkPatch.left < darkPatch.right ∧ darkPatch.top < darkPatch.bottom ∧
      darkPatch.Inside (Point.mk 0 0) ∧
      (0, 1) ∈ darkPatch.visitedIndices (Point.mk 0 0) ∧
      darkPatch.inTable (0, 1) = false ∧
      Point.mk 0 1 ∈ (darkPatch.visitNeighbours cleanMemory (Point.mk 0 0)
        (darkPatch.neighbours (Point.mk 0 0)) [] []).2 ∧
      ¬ ((1 : Int) < darkPatch.bottom - darkPatch.top) ∧
      darkPatch.isReachable cleanMemory (Point.mk 0 0) (Point.mk 2 0) =
        Run.returned true false ∧
      darkPatch.findContiguousShape cleanMemory (Point.mk 0 0) =
        Run.returned { low := Point.mk 0 0, high := Point.mk 2 1 } false := by
  unfold Grapheme.Inside
  decide

/-! ## `Grapheme::countHoles` -/

theorem Grapheme.tableAllocates_of_nonempty (g : Grapheme) (hx : g.left < g.right)
    (hy : g.top < g.bottom) : g.tableAllocates = true := by
  simp only [Grapheme.tableAllocates, Bool.and_eq_true, Bool.or_eq_true, decide_eq_true_eq]
  omega

/-- A call `isReachable(p, p)` returns true at once, before any access to the table. -/
theorem Grapheme.isReachable_self (g : Grapheme) (memory : Int → Int → Bool) (p : Point)
    (halloc : g.tableAllocates = true) :
    g.isReachable memory p p = Run.returned true true := by
  unfold Grapheme.isReachable Grapheme.traversalBound
  rw [if_pos halloc]
  simp only [Grapheme.reachLoop, if_true]

theorem Grapheme.sampleColumn_stuck (g : Grapheme)
    (heap : Point → Point → Int → Int → Bool) (hs : g.spacing = 0)
    (halloc : g.tableAllocates = true) (hy : g.top < g.bottom) :
    ∀ (fuel : Nat) (unreachables : List Point) (ok : Bool),
      g.sampleColumn heap g.left fuel g.top unreachables ok = Run.unfinished := by
  intro fuel
  induction fuel with
  | zero => intro u ok; rfl
  | succ fuel ih =>
    intro u ok
    simp only [Grapheme.sampleColumn, if_pos hy, hs, add_zero,
      g.isReachable_self _ _ halloc, if_true]
    exact ih _ _

/-- With stride 0 on a region that has a sample at all, `countHoles` never leaves its
inner sampling loop, whatever the heap holds. -/
theorem Grapheme.countHoles_stuck (g : Grapheme) (heap : Point → Point → Int → Int → Bool)
    (hs : g.spacing = 0) (hx : g.left < g.right) (hy : g.top < g.bottom) (fuel : Nat) :
    g.countHoles heap fuel = Run.unfinished := by
  have halloc := g.tableAllocates_of_nonempty hx hy
  have hgrid : g.sampleGrid heap fuel g.left [] true = Run.unfinished := by
    cases fuel with
    | zero => rfl
    | succ fuel =>
      simp only [Grapheme.sampleGrid, if_pos hx,
        g.sampleColumn_stuck heap hs halloc hy]
  unfold Grapheme.countHoles
  rw [hgrid]

theorem Grapheme.spacing_narrow (g : Grapheme) (h0 : 0 ≤ g.right - g.left)
    (h1 : g.right - g.left < 10) : g.spacing = 0 :=
  Int.tdiv_eq_zero_of_lt h0 h1

/-- C5, evaluated at a failing input. On a region five pixels wide and five high the stride
of `countHoles` is `5 / 10 = 0`, not at least 1, and the sampling loops never end:
whatever the heap holds and whatever the bound on their iterations, `countHoles` has
produced no result. -/
theorem countHoles_narrowRegion_stuck :
    narrowRegion.spacing = 0 ∧
      ∀ heap fuel, narrowRegion.countHoles heap fuel = Run.unfinished :=
  ⟨by decide, fun heap fuel =>
    narrowRegion.countHoles_stuck heap (by decide) (by decide) (by decide) fuel⟩

set_option maxHeartbeats 4000000 in
/-- C1, evaluated at failing inputs. The region of `solidBar` is ten pixels wide and
bounds a solid filled bar on a uniform background, with no enclosed background, yet
on a clean heap `countHoles` returns 1: the samples that fall on the bar are not
reachable from the background corner and are counted. In the same way `countHoles`
returns 2 on the ring `inkRing`, which encloses one background area. (Both runs also
address `visited` outside its table, the defect of C19.) -/
theorem countHoles_counts_ink :
    solidBar.spacing = 1 ∧ solidBar.countHoles cleanHeap 20 = Run.returned 1 false ∧
      inkRing.spacing = 1 ∧ inkRing.countHoles cleanHeap 20 = Run.returned 2 false := by
  decide

/-- C17, evaluated at failing inputs. On `fencedStrip`, with a clean heap, every run stays
inside its table; the samples of columns 3, 6, ..., 27 are the ones not reachable from
the corner, the clustering pass leaves `(3, 0)`, `(9, 0)` and `(27, 0)`, and
`countHoles` returns 3, although `isReachable((9, 0), (3, 0))` is true: the pass tests
only whether a later element is reachable from an earlier one, and
`isReachable((3, 0), (9, 0))` is false. On `driftHoles`, in the same way, the samples
`(1, 0)`, `(2, 0)`, `(3, 0)` are reduced to `(1, 0)` and `(3, 0)` although
`isReachable((3, 0), (1, 0))` is true. -/
theorem countHoles_leaves_reachable_pair :
    fencedStrip.spacing = 3 ∧
      fencedStrip.sampleGrid cleanHeap 20 fencedStrip.left [] true =
        Run.returned [Point.mk 3 0, Point.mk 6 0, Point.mk 9 0, Point.mk 12 0,
          Point.mk 15 0, Point.mk 18 0, Point.mk 21 0, Point.mk 24 0, Point.mk 27 0] true ∧
      fencedStrip.mergeReachable cleanHeap
        [Point.mk 3 0, Point.mk 6 0, Point.mk 9 0, Point.mk 12 0,
          Point.mk 15 0, Point.mk 18 0, Point.mk 21 0, Point.mk 24 0, Point.mk 27 0] true =
        Run.returned [Point.mk 3 0, Point.mk 9 0, Point.mk 27 0] true ∧
      fencedStrip.countHoles cleanHeap 20 = Run.returned 3 true ∧
      fencedStrip.isReachable cleanMemory (Point.mk 9 0) (Point.mk 3 0) =
        Run.returned true true ∧
      fencedStrip.isReachable cleanMemory (Point.mk 3 0) (Point.mk 9 0) =
        Run.returned false true ∧
      driftHoles.sampleGrid cleanHeap 20 driftHoles.left [] true =
        Run.returned [Point.mk 1 0, Point.mk 2 0, Point.mk 3 0] false ∧
      driftHoles.mergeReachable cleanHeap [Point.mk 1 0, Point.mk 2 0, Point.mk 3 0] false =
        Run.returned [Point.mk 1 0, Point.mk 3 0] false ∧
      driftHoles.countHoles cleanHeap 20 = Run.returned 2 false ∧
      driftHoles.isReachable cleanMemory (Point.mk 3 0) (Point.mk 1 0) =
        Run.returned true false ∧
      driftHoles.isReachable cleanMemory (Point.mk 1 0) (Point.mk 3 0) =
        Run.returned false false := by
  decide

/-! ## Properties of `Page::Read` -/

theorem Page.scanTo_succ (p : Page) (n : Nat) :
    p.scanTo (n + 1) = p.scanRow (p.scanTo n) (n : Int) := by
  simp [Page.scanTo, List.range_succ, List.foldl_append]

theorem Page.divide_eq_scanTo (p : Page) :
    p.divide = (p.scanTo p.image.Height.toNat).lines := by
  unfold Page.divide Page.scanTo intRange
  have : (p.image.Height - 1 + 1 - 0).toNat = p.image.Height.toNat := by
    congr 1
    omega
  rw [this]

theorem bandsOf_append (ls : List Line) (l : Line) :
    bandsOf (ls ++ [l]) = bandsOf ls ++ [(l.top, l.bottom)] := by
  simp [bandsOf]

theorem Page.scanInv_zero (p : Page) : p.ScanInv 0 (p.scanTo 0) where
  emitted := by
    intro t b
    simp only [Page.scanTo, List.range_zero, List.map_nil, List.foldl_nil, bandsOf,
      List.not_mem_nil, false_iff]
    rintro ⟨⟨h0, h1, _⟩, h2⟩
    simp at h2
    omega
  ordered := by simp [Page.scanTo, bandsOf]
  nonempty := by simp [Page.scanTo, bandsOf]
  openRun := by simp [Page.scanTo]
  closed := by simp

theorem Page.scanRow_open (p : Page) (s : LineScan) (row : Int)
    (hink : p.rowHasInk row = true) (hin : s.inRow = false) :
    p.scanRow s row = { s with top := row, inRow := true } := by
  unfold Page.scanRow
  simp [hink, hin]

theorem Page.scanRow_close (p : Page) (s : LineScan) (row : Int)
    (hink : p.rowHasInk row = false) (hin : s.inRow = true) :
    p.scanRow s row =
      { s with
        bottom := row - 1
        lines := s.lines ++ [Line.mk p.image s.top (row - 1) p.font]
        inRow := false } := by
  unfold Page.scanRow
  simp [hink, hin]

theorem Page.scanRow_keep (p : Page) (s : LineScan) (row : Int)
    (h : p.rowHasInk row = s.inRow) : p.scanRow s row = s := by
  unfold Page.scanRow
  cases hin : s.inRow <;> simp [h, hin]

theorem Page.scanInv_step (p : Page) (n : Nat) (s : LineScan) (h : p.ScanInv n s) :
    p.ScanInv (n + 1) (p.scanRow s (n : Int)) := by
  obtain ⟨hem, hord, hne, hopen, hclosed⟩ := h
  by_cases hink : p.rowHasInk (n : Int) = true
  · by_cases hin : s.inRow = true
    · -- the open run goes on
      rw [p.scanRow_keep s n (by rw [hink, hin])]
      obtain ⟨ho1, ho2, ho3, ho4, ho5⟩ := hopen hin
      refine ⟨?_, hord, hne, ?_, ?_⟩
      · intro t b
        rw [hem t b]
        constructor
        · rintro ⟨hr, hb⟩
          exact ⟨hr, by push_cast; omega⟩
        · rintro ⟨hr, hb⟩
          refine ⟨hr, ?_⟩
          push_cast at hb
          rcases lt_or_le (b + 1) (n : Int) with hlt | hge
          · exact hlt
          · have hbn : b + 1 = (n : Int) := by omega
            rw [hbn, hink] at hr
            simp at hr
      · intro _
        refine ⟨ho1, by push_cast; omega, ?_, ho4, ho5⟩
        intro r hr1 hr2
        push_cast at hr2
        rcases lt_or_le r (n : Int) with hlt | hge
        · exact ho3 r hr1 hlt
        · have : r = (n : Int) := by omega
          rw [this]
          exact hink
      · intro hf
        rw [hin] at hf
        simp at hf
    · -- a new run opens at row n
      have hin' : s.inRow = false := by simpa using hin
      rw [p.scanRow_open s n hink hin']
      have hbelow : ∀ a ∈ bandsOf s.lines, a.2 + 1 < (n : Int) := by
        rintro ⟨t, b⟩ ha
        exact ((hem t b).1 ha).2
      refine ⟨?_, hord, hne, ?_, ?_⟩
      · intro t b
        rw [hem t b]
        constructor
        · rintro ⟨hr, hb⟩
          exact ⟨hr, by push_cast; omega⟩
        · rintro ⟨hr, hb⟩
          refine ⟨hr, ?_⟩
          push_cast at hb
          rcases lt_or_le (b + 1) (n : Int) with hlt | hge
          · exact hlt
          · have hbn : b + 1 = (n : Int) := by omega
            rw [hbn, hink] at hr
            simp at hr
      · intro _
        refine ⟨by simp, by simp, ?_, ?_, hbelow⟩
        · intro r hr1 hr2
          simp only at hr1
          push_cast at hr2
          have : r = (n : Int) := by omega
          rw [this]
          exact hink
        · rcases hclosed hin' with h0 | h1
          · left
            simp [h0]
          · right
            exact h1
      · intro hf
        simp at hf
  · have hink' : p.rowHasInk (n : Int) = false := by simpa using hink
    by_cases hin : s.inRow = true
    · -- the open run is closed and emitted
      rw [p.scanRow_close s n hink' hin]
      obtain ⟨ho1, ho2, ho3, ho4, ho5⟩ := hopen hin
      refine ⟨?_, ?_, ?_, ?_, ?_⟩
      · intro t b
        rw [bandsOf_append, List.mem_append, hem t b]
        simp only [List.mem_singleton, Prod.mk.injEq]
        constructor
        · rintro (⟨hr, hb⟩ | ⟨rfl, rfl⟩)
          · exact ⟨hr, by push_cast; omega⟩
          · refine ⟨⟨ho1, by omega, fun r h1 h2 => ho3 r h1 (by omega), ?_, ho4⟩,
              by push_cast; omega⟩
            have : (n : Int) - 1 + 1 = n := by omega
            rw [this]
            exact hink'
        · rintro ⟨hr, hb⟩
          push_cast at hb
          rcases lt_or_le (b + 1) (n : Int) with hlt | hge
          · exact Or.inl ⟨hr, hlt⟩
          · right
            have hbn : b = (n : Int) - 1 := by omega
            refine ⟨?_, hbn⟩
            obtain ⟨hr1, hr2, hr3, hr4, hr5⟩ := hr
            rcases lt_trichotomy t s.top with hlt | heq | hgt
            · exfalso
              rcases ho4 with h0 | hbg
              · omega
              · have := hr3 (s.top - 1) (by omega) (by omega)
                rw [hbg] at this
                simp at this
            · exact heq
            · exfalso
              rcases hr5 with h0 | hbg
              · omega
              · have := ho3 (t - 1) (by omega) (by omega)
                rw [hbg] at this
                simp at this
      · rw [bandsOf_append, List.pairwise_append]
        refine ⟨hord, List.pairwise_singleton _ _, ?_⟩
        intro a ha c hc
        rw [List.mem_singleton] at hc
        subst hc
        exact ho5 a ha
      · intro a ha
        rw [bandsOf_append, List.mem_append, List.mem_singleton] at ha
        rcases ha with ha | rfl
        · exact hne a ha
        · simp only
          omega
      · intro hf
        simp at hf
      · intro _
        right
        push_cast
        have : (n : Int) + 1 - 1 = n := by omega
        rw [this]
        exact hink'
    · -- background between runs
      have hin' : s.inRow = false := by simpa using hin
      rw [p.scanRow_keep s n (by rw [hink', hin'])]
      refine ⟨?_, hord, hne, ?_, ?_⟩
      · intro t b
        rw [hem t b]
        constructor
        · rintro ⟨hr, hb⟩
          exact ⟨hr, by push_cast; omega⟩
        · rintro ⟨hr, hb⟩
          refine ⟨hr, ?_⟩
          push_cast at hb
          rcases lt_or_le (b + 1) (n : Int) with hlt | hge
          · exact hlt
          · exfalso
            obtain ⟨hr1, hr2, hr3, hr4, hr5⟩ := hr
            rcases hclosed hin' with h0 | hbg
            · subst h0
              simp at hge hb
              omega
            · have hbn : b = (n : Int) - 1 := by omega
              have := hr3 b hr2 le_rfl
              rw [hbn, hbg] at this
              simp at this
      · intro hf
        rw [hin'] at hf
        simp at hf
      · intro _
        right
        push_cast
        have : (n : Int) + 1 - 1 = n := by omega
        rw [this]
        exact hink'

/-- The invariant holds after every number of scanned rows. -/
theorem Page.scanInv (p : Page) : ∀ n, p.ScanInv n (p.scanTo n)
  | 0 => p.scanInv_zero
  | n + 1 => by
    rw [Page.scanTo_succ]
    exact p.scanInv_step n _ (Page.scanInv p n)

/-- A pair is emitted exactly when it is a closed run of the page. -/
theorem Page.mem_bands_iff (p : Page) (t b : Int) :
    (t, b) ∈ p.bands ↔ p.IsClosedRun t b := by
  have h := (p.scanInv p.image.Height.toNat).emitted t b
  unfold Page.bands
  rw [Page.divide_eq_scanTo]
  unfold bandsOf at h
  rw [h]
  unfold Page.IsClosedRun
  constructor
  · rintro ⟨⟨h0, h1, h2, h3, h4⟩, h5⟩
    exact ⟨h0, h1, by omega, h2, h3, h4⟩
  · rintro ⟨h0, h1, h5, h2, h3, h4⟩
    exact ⟨⟨h0, h1, h2, h3, h4⟩, by omega⟩

theorem Page.bands_sorted (p : Page) : p.bands.Pairwise bandBefore := by
  have h := p.scanInv p.image.Height.toNat
  have hb : p.bands = bandsOf (p.scanTo p.image.Height.toNat).lines := by
    unfold Page.bands bandsOf
    rw [Page.divide_eq_scanTo]
  rw [hb]
  refine (List.Pairwise.and_mem.1 h.ordered).imp ?_
  rintro a b ⟨ha, hb, hab⟩
  exact ⟨h.nonempty a ha, h.nonempty b hb, hab⟩



/-- C7. The `(top, bottom)` pairs that `Page::Read` pushes into `lines` are exactly the
maximal runs of rows with ink that are closed by an all-background row of the image
(so a run reaching the last row is absent), and they are listed from top to bottom. -/
theorem Page.bands_exactly_closed_runs (p : Page) :
    (∀ t b, (t, b) ∈ p.bands ↔ p.IsClosedRun t b) ∧
      p.bands.Pairwise (fun a b => a.2 < b.1) := by
  refine ⟨p.mem_bands_iff, p.bands_sorted.imp ?_⟩
  intro a b h
  unfold bandBefore at h
  omega

/-- C9. Every line emitted by `Page::Read` has `top <= bottom`, and of two emitted lines
the earlier one ends strictly above the top of the later one. -/
theorem Page.divide_ordered_disjoint (p : Page) :
    (∀ l ∈ p.divide, l.top ≤ l.bottom) ∧
      p.divide.Pairwise (fun a b => a.bottom < b.top) := by
  have hs := p.bands_sorted
  unfold Page.bands at hs
  rw [List.pairwise_map] at hs
  constructor
  · intro l hl
    have hm : (l.top, l.bottom) ∈ p.bands := by
      unfold Page.bands
      exact List.mem_map.2 ⟨l, hl, rfl⟩
    exact ((p.mem_bands_iff _ _).1 hm).2.1
  · refine hs.imp ?_
    intro a b h
    unfold bandBefore at h
    simp only at h
    omega

theorem Page.rowHasInk_eq_false (p : Page) (row : Int)
    (h : ∀ col, 0 ≤ col → col < p.image.Width →
      isForeground (p.image.pixel col row) = false) :
    p.rowHasInk row = false := by
  unfold Page.rowHasInk
  rw [List.any_eq_false]
  intro col hcol
  rw [mem_intRange] at hcol
  simp [h col hcol.1 (by omega)]

/-- C10. On an image without any foreground pixel `Page::Read` emits no line and returns
the empty string. -/
theorem Page.Read_blank (lineRead : Line → String) (p : Page)
    (h : ∀ col row, 0 ≤ col → col < p.image.Width → 0 ≤ row → row < p.image.Height →
      isForeground (p.image.pixel col row) = false) :
    p.divide = [] ∧ p.Read lineRead = "" := by
  have hb : p.bands = [] := by
    rw [List.eq_nil_iff_forall_not_mem]
    rintro ⟨t, b⟩ hm
    obtain ⟨h0, h1, h2, h3, _, _⟩ := (p.mem_bands_iff t b).1 hm
    have hink := h3 t le_rfl h1
    rw [p.rowHasInk_eq_false t (fun col hc0 hc1 => h col t hc0 hc1 h0 (by omega))] at hink
    simp at hink
  have hd : p.divide = [] := by
    unfold Page.bands at hb
    exact List.map_eq_nil_iff.1 hb
  refine ⟨hd, ?_⟩
  unfold Page.Read
  rw [hd]
  rfl

/-- Witness for C10: a page of three light rows. -/
theorem Page.Read_blank_witness :
    (pageOfRows [255, 255, 255]).divide = [] ∧
      (pageOfRows [255, 255, 255]).Read (fun _ => "line") = "" :=
  Page.Read_blank (fun _ => "line") (pageOfRows [255, 255, 255]) (by
    intro col row h0 h1 h2 h3
    have hw : (pageOfRows [255, 255, 255]).image.Width = 1 := by decide
    have hh : (pageOfRows [255, 255, 255]).image.Height = 3 := by decide
    rw [hw] at h1
    rw [hh] at h3
    have hc : col = 0 := by omega
    subst hc
    have hr : row = 0 ∨ row = 1 ∨ row = 2 := by omega
    rcases hr with rfl | rfl | rfl <;> decide)

/-- C8 as stated fails: on a page of four rows whose ink rows form the bands `[0, 0]` and
`[2, 3]`, separated by the background row 1, `Page::Read` emits the single line
`(0, 0)`. -/
theorem Page.bands_trailing_band_dropped :
    (pageOfRows [0, 255, 0, 0]).bands = [(0, 0)] := by
  decide

theorem Page.isClosedRun_of_band (p : Page) (ink : Int → Prop)
    (hink : ∀ r, 0 ≤ r → r < p.image.Height → (p.rowHasInk r = true ↔ ink r))
    (t b : Int) (h0 : 0 ≤ t) (h1 : t ≤ b) (h2 : b + 1 < p.image.Height)
    (hin : ∀ r, t ≤ r → r ≤ b → ink r) (hafter : ¬ ink (b + 1))
    (hbefore : t = 0 ∨ ¬ ink (t - 1)) : p.IsClosedRun t b := by
  refine ⟨h0, h1, h2, ?_, ?_, ?_⟩
  · intro r hr1 hr2
    exact (hink r (by omega) (by omega)).2 (hin r hr1 hr2)
  · have := hink (b + 1) (by omega) h2
    cases hv : p.rowHasInk (b + 1)
    · rfl
    · exact absurd (this.1 hv) hafter
  · rcases hbefore with h | h
    · exact Or.inl h
    · rcases eq_or_lt_of_le h0 with h00 | hpos
      · exact Or.inl h00.symm
      · right
        have := hink (t - 1) (by omega) (by omega)
        cases hv : p.rowHasInk (t - 1)
        · rfl
        · exact absurd (this.1 hv) h

/-- C8, amended. On a page whose rows with ink form exactly two bands `[t1, b1]` and
`[t2, b2]`, separated by at least one all-background row, and whose second band is
followed by at least one row of the image, `Page::Read` emits exactly the two lines
`(t1, b1)` and `(t2, b2)`. -/
theorem Page.bands_two_bands (p : Page) (t1 b1 t2 b2 : Int)
    (h0 : 0 ≤ t1) (h1 : t1 ≤ b1) (hgap : b1 + 1 < t2) (h2 : t2 ≤ b2)
    (hlast : b2 + 1 < p.image.Height)
    (hink : ∀ r, 0 ≤ r → r < p.image.Height →
      (p.rowHasInk r = true ↔ (t1 ≤ r ∧ r ≤ b1) ∨ (t2 ≤ r ∧ r ≤ b2))) :
    p.bands = [(t1, b1), (t2, b2)] := by
  have hmem : ∀ t b, (t, b) ∈ p.bands ↔ (t, b) ∈ [(t1, b1), (t2, b2)] := by
    intro t b
    rw [p.mem_bands_iff]
    simp only [List.mem_cons, Prod.mk.injEq, List.mem_singleton, List.not_mem_nil, or_false]
    constructor
    · rintro ⟨c0, c1, c2, c3, c4, c5⟩
      have hb := (hink b (by omega) (by omega)).1 (c3 b c1 le_rfl)
      have ht := (hink t c0 (by omega)).1 (c3 t le_rfl c1)
      have hnext : ¬ ((t1 ≤ b + 1 ∧ b + 1 ≤ b1) ∨ (t2 ≤ b + 1 ∧ b + 1 ≤ b2)) := by
        intro hcon
        have := (hink (b + 1) (by omega) c2).2 hcon
        rw [c4] at this
        simp at this
      have hprev : t = 0 ∨ ¬ ((t1 ≤ t - 1 ∧ t - 1 ≤ b1) ∨ (t2 ≤ t - 1 ∧ t - 1 ≤ b2)) := by
        rcases c5 with h | h
        · exact Or.inl h
        · rcases eq_or_lt_of_le c0 with h00 | hpos
          · exact Or.inl h00.symm
          · right
            intro hcon
            have := (hink (t - 1) (by omega) (by omega)).2 hcon
            rw [h] at this
            simp at this
      have hmid : ∀ r, t ≤ r → r ≤ b → (t1 ≤ r ∧ r ≤ b1) ∨ (t2 ≤ r ∧ r ≤ b2) :=
        fun r hr1 hr2 => (hink r (by omega) (by omega)).1 (c3 r hr1 hr2)
      have hgaprow : ¬ (t ≤ b1 + 1 ∧ b1 + 1 ≤ b) := by
        rintro ⟨hg1, hg2⟩
        have := hmid (b1 + 1) hg1 hg2
        omega
      omega
    · rintro (⟨rfl, rfl⟩ | ⟨rfl, rfl⟩)
      · exact p.isClosedRun_of_band _ hink t b h0 h1 (by omega)
          (fun r hr1 hr2 => Or.inl ⟨hr1, hr2⟩) (by omega) (by omega)
      · exact p.isClosedRun_of_band _ hink t b (by omega) h2 hlast
          (fun r hr1 hr2 => Or.inr ⟨hr1, hr2⟩) (by omega) (by omega)
  have hs2 : [(t1, b1), (t2, b2)].Pairwise bandBefore := by
    simp only [List.pairwise_cons, List.mem_singleton, forall_eq, List.not_mem_nil,
      false_implies, implies_true, List.Pairwise.nil, and_true]
    exact ⟨h1, h2, hgap⟩
  have hperm : p.bands.Perm [(t1, b1), (t2, b2)] :=
    (List.perm_ext_iff_of_nodup p.bands_sorted.nodup hs2.nodup).2
      (fun a => hmem a.1 a.2)
  exact List.eq_of_perm_of_sorted hperm p.bands_sorted hs2

/-- Witness for C8, amended: ink rows 1 to 2 and row 4 on a page of six rows. -/
theorem Page.bands_two_bands_witness :
    (pageOfRows [255, 0, 0, 255, 0, 255]).bands = [(1, 2), (4, 4)] :=
  Page.bands_two_bands (pageOfRows [255, 0, 0, 255, 0, 255]) 1 2 4 4
    (by decide) (by decide) (by decide) (by decide) (by decide) (by
      intro r hr0 hr1
      have hh : (pageOfRows [255, 0, 0, 255, 0, 255]).image.Height = 6 := by decide
      rw [hh] at hr1
      have hr : r = 0 ∨ r = 1 ∨ r = 2 ∨ r = 3 ∨ r = 4 ∨ r = 5 := by omega
      rcases hr with rfl | rfl | rfl | rfl | rfl | rfl <;> decide)

/-! ## Claims on the pixel predicates -/

theorem isSimilar_eq_true_iff (a b : RGBApixel) :
    isSimilar a b = true ↔
      |(a.Red : Int) - (b.Red : Int)| < 10 ∧ |(a.Green : Int) - (b.Green : Int)| < 10 ∧
        |(a.Blue : Int) - (b.Blue : Int)| < 10 := by
  simp only [isSimilar, Bool.and_eq_true, decide_eq_true_eq, abs_lt]
  constructor
  · rintro ⟨⟨h1, h2⟩, h3⟩
    split_ifs at h1 h2 h3 <;> omega
  · rintro ⟨h1, h2, h3⟩
    split_ifs <;> omega

/-- C11. The predicate `isSimilar(a, b)` is true exactly when the absolute difference of
the red, of the green and of the blue channel is each below 10; so a difference of
exactly 10 in any one channel makes the pixels not similar. -/
theorem isSimilar_iff_channels_within_ten (a b : RGBApixel) :
    (isSimilar a b = true ↔
        |(a.Red : Int) - (b.Red : Int)| < 10 ∧ |(a.Green : Int) - (b.Green : Int)| < 10 ∧
          |(a.Blue : Int) - (b.Blue : Int)| < 10) ∧
      (|(a.Red : Int) - (b.Red : Int)| = 10 ∨ |(a.Green : Int) - (b.Green : Int)| = 10 ∨
          |(a.Blue : Int) - (b.Blue : Int)| = 10 →
        isSimilar a b = false) := by
  refine ⟨isSimilar_eq_true_iff a b, ?_⟩
  intro h
  cases hs : isSimilar a b with
  | false => rfl
  | true =>
    obtain ⟨h1, h2, h3⟩ := (isSimilar_eq_true_iff a b).1 hs
    rcases h with h | h | h
    · rw [h] at h1
      exact absurd h1 (by decide)
    · rw [h] at h2
      exact absurd h2 (by decide)
    · rw [h] at h3
      exact absurd h3 (by decide)

/-- Witness for C11: the grey levels 0 and 10 differ by exactly 10 and are not similar. -/
theorem isSimilar_iff_channels_within_ten_witness :
    isSimilar (grey 0) (grey 10) = false :=
  (isSimilar_iff_channels_within_ten (grey 0) (grey 10)).2 (Or.inl (by decide))

/-- C12. The predicate `isSimilar` is reflexive and symmetric but not transitive: the
grey levels 0 and 9 are similar, 9 and 18 are similar, 0 and 18 are not. -/
theorem isSimilar_tolerance_relation :
    (∀ c, isSimilar c c = true) ∧ (∀ a b, isSimilar a b = isSimilar b a) ∧
      ∃ a b c, isSimilar a b = true ∧ isSimilar b c = true ∧ isSimilar a c = false := by
  refine ⟨?_, ?_, ⟨grey 0, grey 9, grey 18, by decide, by decide, by decide⟩⟩
  · intro c
    rw [isSimilar_eq_true_iff]
    simp
  · intro a b
    have h : ∀ x y, isSimilar x y = true → isSimilar y x = true := by
      intro x y hxy
      rw [isSimilar_eq_true_iff] at hxy ⊢
      rw [abs_sub_comm (y.Red : Int), abs_sub_comm (y.Green : Int),
        abs_sub_comm (y.Blue : Int)]
      exact hxy
    cases hab : isSimilar a b with
    | true => exact (h a b hab).symm
    | false =>
      cases hba : isSimilar b a with
      | false => rfl
      | true => rw [h b a hba] at hab; exact absurd hab (by decide)

/-! ## Further claims on `pareDown` -/

theorem pareUp_fst_ge (test : Int → Bool) (hi : Int) :
    ∀ (n : Nat) (i : Int) (fgFound : Bool), i ≤ (pareUp test hi n i fgFound).1 := by
  intro n
  induction n with
  | zero => intro i fgFound; simp [pareUp]
  | succ n ih =>
    intro i fgFound
    simp only [pareUp]
    split_ifs with hc
    · have := ih (i + 1) (fgFound || test i)
      omega
    · exact le_rfl

theorem pareDownward_fst_le (test : Int → Bool) (lo : Int) :
    ∀ (n : Nat) (i : Int) (fgFound : Bool), (pareDownward test lo n i fgFound).1 ≤ i := by
  intro n
  induction n with
  | zero => intro i fgFound; simp [pareDownward]
  | succ n ih =>
    intro i fgFound
    simp only [pareDownward]
    split_ifs with hc
    · have := ih (i - 1) (fgFound || test i)
      omega
    · exact le_rfl

/-- C20. The method `pareDown` only narrows the rectangle: afterwards `left` and `top` are
not smaller and `right` and `bottom` not larger than before, and the image with its
pixels is the one it was. -/
theorem pareDown_narrows (g : Grapheme) :
    g.left ≤ g.pareDown.left ∧ g.top ≤ g.pareDown.top ∧
      g.pareDown.right ≤ g.right ∧ g.pareDown.bottom ≤ g.bottom ∧
      g.pareDown.image.pixel = g.image.pixel ∧
      g.pareDown.image.Width = g.image.Width ∧ g.pareDown.image.Height = g.image.Height :=
  ⟨pareUp_fst_ge _ _ _ _ _, pareUp_fst_ge _ _ _ _ _, pareDownward_fst_le _ _ _ _ _,
    pareDownward_fst_le _ _ _ _ _, rfl, rfl, rfl⟩

/-- For the whole-image grapheme of any bitmap the first row that `pareDown` scans is read
up to the column `width`, one past the last column of the image. -/
theorem Grapheme.pareDownReads_ofImage (img : BMP) (hw : 0 ≤ img.Width)
    (hh : 0 ≤ img.Height) : (img.Width, 0) ∈ (Grapheme.ofImage img).pareDownReads := by
  unfold Grapheme.pareDownReads
  simp only [List.append_assoc, List.mem_append]
  left
  have hn : ((Grapheme.ofImage img).bottom + 1 - (Grapheme.ofImage img).top).toNat =
      img.Height.toNat + 1 := by
    simp only [Grapheme.ofImage]
    omega
  rw [hn, pareUpReads]
  have hc : (Grapheme.ofImage img).top ≤ (Grapheme.ofImage img).bottom ∧ false = false :=
    ⟨hh, rfl⟩
  rw [if_pos hc, List.mem_append]
  left
  unfold rowCoords
  rw [List.mem_map]
  exact ⟨img.Width, mem_intRange.2 ⟨hw, le_rfl⟩, rfl⟩

/-- C18, evaluated at a failing input. For the whole-image grapheme of a bitmap of two
columns and two rows, `pareDown` passes the coordinates `(2, 0)` and `(2, 1)` to the
image, whose columns are 0 and 1: the column loops run to `col = right = width`. -/
theorem pareDown_reads_outside_image :
    cornerInk.image.Width = 2 ∧ cornerInk.image.Height = 2 ∧
      cornerInk.pareDownReads =
        [(0, 0), (1, 0), (2, 0), (0, 1), (1, 1), (2, 1), (0, 1), (1, 1), (2, 1)] ∧
      (2, 0) ∈ cornerInk.pareDownReads ∧ ¬ ((2 : Int) < cornerInk.image.Width) := by
  decide

end OCR
